import Mathlib

/-!
# pegomock `remove`: a shallow embedding of `pegomock/remove/remove.go`

The Go package deletes the files that pegomock generated below a root path,
together with the `matchers` directories that held nothing else.

Modelling choices.

* A path is the list of its components (`Path`), in cleaned form, relative to
  the working directory; `render` gives the text that Go prints and sorts.
  `filepath.Join`, `filepath.Dir`, `filepath.Base` and `filepath.Ext` act on
  that form.
* The file system is a tree (`Node`).  A node is a regular file with its bytes
  or a directory with its entries, each with one access flag (`readable`):
  for a file it says whether `os.Open` succeeds, for a directory whether it can
  be opened, listed and searched.  Entries are kept in the order in which
  `filepath.Walk` and `ioutil.ReadDir` return them.
* The output sink is the list of the chunks written to it, in order.
* The input stream is a finite list of characters followed by `io.EOF`.
* A Go `map[string]bool` used as a set is a duplicate-free list of keys; the
  order in which `range` iterates over it is a parameter of `Remove`.
* `removeFn` is a function on a world made of the file system and a private
  state of the remover; every invocation is recorded in the result.
* A run-time panic (a method call on a nil `os.FileInfo`) is an explicit
  outcome.
-/

namespace Pegomock

/-! ## Paths -/

/-- A cleaned relative path: the list of its components; `[]` is `"."`. -/
abbrev Path := List String

/-- Go `filepath.Join(path, name)` for a cleaned path and an entry name. -/
def Join (path : Path) (name : String) : Path := path ++ [name]

/-- Go `filepath.Dir`: all but the last element; `Dir(".")` is `"."`. -/
def Dir (path : Path) : Path := path.dropLast

/-- Go `filepath.Base`: the last element; `Base(".")` is `"."`. -/
def Base (path : Path) : String :=
  match path.getLast? with
  | some name => name
  | none => "."

/-- The suffix of an element that starts at its last dot, empty when there is
no dot. -/
def extOf : List Char → List Char
  | [] => []
  | c :: cs =>
    match extOf cs with
    | [] => if c = '.' then c :: cs else []
    | e :: es => e :: es

/-- Go `filepath.Ext`: the suffix beginning at the final dot of the final
element of the path. -/
def Ext (path : Path) : String := String.mk (extOf (Base path).data)

/-- The text of a path, elements separated by `/`. -/
def render : Path → String
  | [] => "."
  | [name] => name
  | name :: next :: rest => name ++ "/" ++ render (next :: rest)

/-! ## The file system -/

/-- A file-system object. -/
inductive Node where
  | file (readable : Bool) (content : List Nat)
  | dir (readable : Bool) (entries : List (String × Node))

/-- The part of `os.FileInfo` the program uses. -/
structure FileInfo where
  name : String
  isDir : Bool

/-- Whether a node is a directory. -/
def Node.isDir : Node → Bool
  | .file _ _ => false
  | .dir _ _ => true

/-- The entry of a directory listing with the given name. -/
def lookupEntry (name : String) : List (String × Node) → Option Node
  | [] => none
  | (n, c) :: rest => if n = name then some c else lookupEntry name rest

/-- Path resolution (`os.Lstat`): the node a path names, if every directory on
the way can be searched. -/
def lookup : Node → Path → Option Node
  | node, [] => some node
  | .dir true es, name :: rest =>
    match lookupEntry name es with
    | some c => lookup c rest
    | none => none
  | .dir false _, _ :: _ => none
  | .file _ _, _ :: _ => none

/-- The names in a directory listing. -/
def names (es : List (String × Node)) : List String := es.map Prod.fst

/-- Go `os.Open(path)` followed by `f.Readdirnames(-1)`: the names in the
directory, or nothing when the path cannot be opened or is not a directory. -/
def readdirnames (fs : Node) (path : Path) : Option (List String) :=
  match lookup fs path with
  | some (.dir true es) => some (names es)
  | _ => none

/-- Go `ioutil.ReadDir(path)`: the `FileInfo` of every entry, or an error. -/
def ioutilReadDir (fs : Node) (path : Path) : Except String (List FileInfo) :=
  match lookup fs path with
  | some (.dir true es) => .ok (es.map fun e => ⟨e.1, e.2.isDir⟩)
  | some (.dir false _) => .error ("open " ++ render path ++ ": permission denied")
  | some (.file _ _) => .error ("readdirent " ++ render path ++ ": not a directory")
  | none => .error ("open " ++ render path ++ ": no such file or directory")

/-! ## Byte strings -/

/-- The marker text. -/
def markerText : String := "// Code generated by pegomock. DO NOT EDIT."

/-- The marker as bytes (the text is ASCII). -/
def marker : List Nat := markerText.data.map Char.toNat

/-- Whether `sub` is a prefix of `s`. -/
def hasPrefix : List Nat → List Nat → Bool
  | _, [] => true
  | [], _ :: _ => false
  | c :: cs, d :: ds => c = d && hasPrefix cs ds

/-- Go `strings.Contains(s, sub)` on byte strings. -/
def Contains : List Nat → List Nat → Bool
  | [], sub => hasPrefix [] sub
  | c :: cs, sub => hasPrefix (c :: cs) sub || Contains cs sub

/-- Go `file.Read(b)` on a freshly opened regular file with a zeroed buffer of
`size` bytes: the buffer afterwards and the error.  Reading at the end of the
file (an empty file) gives `io.EOF`; otherwise the first bytes of the file
overwrite the start of the buffer and the rest of it stays zero. -/
def fileRead (content : List Nat) (size : Nat) : List Nat × Option String :=
  match content with
  | [] => (List.replicate size 0, some "EOF")
  | _ :: _ =>
    let got := content.take size
    (got ++ List.replicate (size - got.length) 0, none)

/-- The function `isPegomockGenerated(path, out)`: the verdict and the sink. -/
def isPegomockGenerated (fs : Node) (path : Path) (out : List String) :
    Bool × List String :=
  match lookup fs path with
  | none =>
    (false, out ++ ["Could not open file " ++ render path ++ ". Error: open "
      ++ render path ++ ": no such file or directory\n"])
  | some (.file false _) =>
    (false, out ++ ["Could not open file " ++ render path ++ ". Error: open "
      ++ render path ++ ": permission denied\n"])
  | some (.dir false _) =>
    (false, out ++ ["Could not open file " ++ render path ++ ". Error: open "
      ++ render path ++ ": permission denied\n"])
  | some (.dir true _) =>
    (false, out ++ ["Could not read from file " ++ render path ++ ". Error: read "
      ++ render path ++ ": is a directory\n"])
  | some (.file true content) =>
    match fileRead content 50 with
    | (_, some e) =>
      (false, out ++ ["Could not read from file " ++ render path ++ ". Error: " ++ e ++ "\n"])
    | (b, none) => if Contains b marker then (true, out) else (false, out)

/-! ## Go maps used as sets -/

/-- The statement `m[k] = true` on a map used as a set. -/
def mapSet (m : List Path) (k : Path) : List Path :=
  if k ∈ m then m else m ++ [k]

/-- The statement `delete(m, k)`. -/
def mapDelete (m : List Path) (k : Path) : List Path :=
  m.filter fun x => x ≠ k

/-! ## Walking -/

/-- Go `filepath.WalkFunc` over a state `σ`: the new state and the returned
error, or nothing when the call panics. -/
abbrev WalkFunc (σ : Type) :=
  Path → Option FileInfo → Option String → σ → Option (σ × Option String)

mutual
/-- Go `filepath.walk`: the callback is run on the node; a directory that can
be listed is then descended into, entry by entry, and the first error stops
the walk.  The callback of this program never returns `filepath.SkipDir`, so
that value is not told apart from other errors. -/
def walk {σ : Type} (walkFn : WalkFunc σ) (path : Path) : Node → σ → Option (σ × Option String)
  | .file _ _, st => walkFn path (some ⟨Base path, false⟩) none st
  | .dir true es, st =>
    match walkFn path (some ⟨Base path, true⟩) none st with
    | none => none
    | some (st1, some e) => some (st1, some e)
    | some (st1, none) => walkEntries walkFn path es st1
  | .dir false _, st =>
    walkFn path (some ⟨Base path, true⟩) (some ("open " ++ render path ++ ": permission denied")) st
/-- The loop of `filepath.walk` over the entries of a directory. -/
def walkEntries {σ : Type} (walkFn : WalkFunc σ) (path : Path) :
    List (String × Node) → σ → Option (σ × Option String)
  | [], st => some (st, none)
  | (name, child) :: rest, st =>
    match walk walkFn (Join path name) child st with
    | none => none
    | some (st1, some e) => some (st1, some e)
    | some (st1, none) => walkEntries walkFn path rest st1
end

/-- Go `filepath.Walk(root, fn)`: when `os.Lstat(root)` fails the callback is
called with a nil `FileInfo` and the error. -/
def Walk {σ : Type} (fs : Node) (root : Path) (walkFn : WalkFunc σ) (st : σ) :
    Option (σ × Option String) :=
  match lookup fs root with
  | none => walkFn root none (some ("lstat " ++ render root ++ ": no such file or directory")) st
  | some node => walk walkFn root node st

/-- The loop of `walkFilesInDir`: the callback is run on every entry and its
result is dropped. -/
def walkInfos {σ : Type} (walkFn : WalkFunc σ) (path : Path) : List FileInfo → σ → Option σ
  | [], st => some st
  | info :: rest, st =>
    match walkFn (Join path info.name) (some info) none st with
    | none => none
    | some (st1, _) => walkInfos walkFn path rest st1

/-- The function `walkFilesInDir(path, walk)`.  When `ioutil.ReadDir` fails an
error value is built and dropped, the list of entries is nil, and the function
returns nil. -/
def walkFilesInDir {σ : Type} (fs : Node) (path : Path) (walkFn : WalkFunc σ) (st : σ) :
    Option (σ × Option String) :=
  let fileInfos :=
    match ioutilReadDir fs path with
    | .ok infos => infos
    | .error _ => []
  match walkInfos walkFn path fileInfos st with
  | none => none
  | some st1 => some (st1, none)

/-- The variables the callback of `getFilePaths` closes over, and the sink. -/
structure WalkState where
  filepaths : List Path
  matcherPaths : List Path
  out : List String

/-- The callback of `getFilePaths`.  `info.IsDir()` on a nil `FileInfo`
panics; the operands of `&&` are evaluated left to right. -/
def getFilePathsFn (fs : Node) : WalkFunc WalkState := fun path info _ st =>
  match info with
  | none => none
  | some info =>
    if !info.isDir && Ext path == ".go" then
      match isPegomockGenerated fs path st.out with
      | (true, out) =>
        if Base (Dir path) == "matchers" then
          some (⟨st.filepaths ++ [path], mapSet st.matcherPaths (Dir path), out⟩, none)
        else
          some (⟨st.filepaths ++ [path], st.matcherPaths, out⟩, none)
      | (false, out) => some (⟨st.filepaths, st.matcherPaths, out⟩, none)
    else some (st, none)

/-- What `getFilePaths` returns: the files, the candidate directories, the
error, and the sink. -/
structure Found where
  filepaths : List Path
  matcherPaths : List Path
  err : Option String
  out : List String

/-- The function `getFilePaths(recursive, path, out)`; nothing when it
panics. -/
def getFilePaths (fs : Node) (recursive : Bool) (path : Path) (out : List String) :
    Option Found :=
  let run := if recursive then Walk fs path (getFilePathsFn fs) ⟨[], [], out⟩
    else walkFilesInDir fs path (getFilePathsFn fs) ⟨[], [], out⟩
  match run with
  | none => none
  | some (st, some _) => some ⟨[], [], some ("Could not get files in path " ++ render path), st.out⟩
  | some (st, none) => some ⟨st.filepaths, st.matcherPaths, none, st.out⟩

/-! ## Classifying directories -/

/-- The function `difference(root, a, b)`: the map's keys. -/
def difference (root : Path) (a : List String) (b : List Path) : List Path :=
  let m := a.foldl (fun m s => mapSet m (Join root s)) []
  b.foldl (fun m s => mapDelete m s) m

/-- The function `containsOnlyGeneratedFiles`. -/
def containsOnlyGeneratedFiles (fs : Node) (matchersDirPath : Path)
    (generatedFilenames : List Path) : Bool :=
  match readdirnames fs matchersDirPath with
  | none => false
  | some filenamesInMatchersDir =>
    if (difference matchersDirPath filenamesInMatchersDir generatedFilenames).length = 0 then true
    else false

/-- The function `dirEmpty`: `Readdirnames(1)` gives `io.EOF` exactly on a
directory without entries. -/
def dirEmpty (fs : Node) (path : Path) : Bool :=
  match lookup fs path with
  | some (.dir true []) => true
  | _ => false

/-! ## The plan -/

/-- The loop of `Remove` over the candidate directories, given in the order in
which `range` yields them: a directory that passes the test against the slice
built so far is appended to it. -/
def appendMatchers (fs : Node) : List Path → List Path → List Path
  | [], allFilepathsSorted => allFilepathsSorted
  | matchersDirPath :: rest, allFilepathsSorted =>
    if containsOnlyGeneratedFiles fs matchersDirPath allFilepathsSorted then
      appendMatchers fs rest (allFilepathsSorted ++ [matchersDirPath])
    else appendMatchers fs rest allFilepathsSorted

/-- Go's `<` on strings, by code points. -/
def ltChars : List Char → List Char → Bool
  | [], [] => false
  | [], _ :: _ => true
  | _ :: _, [] => false
  | a :: as, b :: bs =>
    if a.toNat < b.toNat then true
    else if b.toNat < a.toNat then false
    else ltChars as bs

/-- The order `sort.Strings` sorts by: `a` does not come after `b`. -/
def strLe (a b : String) : Bool := !ltChars b.data a.data

/-- Go `sort.Strings` on paths, by their text. -/
def sortStrings (l : List Path) : List Path :=
  l.insertionSort fun a b => strLe (render a) (render b) = true

/-- The slice `allFilepathsSorted` of `Remove` after it is sorted: the plan. -/
def allFilepathsSorted (fs : Node) (range : List Path → List Path)
    (filepaths matchersDirPaths : List Path) : List Path :=
  sortStrings (appendMatchers fs (range matchersDirPaths) filepaths)

/-- The chunk `fmt.Fprintln(out, strings.Join(allFilepathsSorted, "\n"))`. -/
def listing (plan : List Path) : String :=
  String.intercalate "\n" (plan.map render) ++ "\n"

/-! ## Confirmation -/

/-- Go `unicode.IsSpace`. -/
def isSpace (c : Char) : Bool :=
  let n := c.toNat
  n = 0x09 || n = 0x0A || n = 0x0B || n = 0x0C || n = 0x0D || n = 0x20 || n = 0x85
    || n = 0xA0 || n = 0x1680 || (0x2000 ≤ n && n ≤ 0x200A) || n = 0x2028 || n = 0x2029
    || n = 0x202F || n = 0x205F || n = 0x3000

/-- Go `strings.TrimSpace`. -/
def trimSpace (s : List Char) : List Char :=
  ((s.dropWhile isSpace).reverse.dropWhile isSpace).reverse

/-- Go `strings.ToLower`, on the ASCII letters.  No character outside ASCII is
lowered by Go to one of the letters of `y`, `yes`, `n`, `no`, so the tests of
`askForConfirmation` are not affected. -/
def toLower (s : List Char) : List Char := s.map Char.toLower

/-- The successive results of `reader.ReadString('\n')`: every line that ends
in a newline, the newline included, and then the rest of the stream, which is
returned together with `io.EOF`. -/
def readStrings : List Char → List (List Char) × List Char
  | [] => ([], [])
  | c :: cs =>
    match readStrings cs with
    | (ls, tl) =>
      if c = '\n' then ([c] :: ls, tl)
      else
        match ls with
        | [] => ([], c :: tl)
        | l :: ls1 => ((c :: l) :: ls1, tl)

/-- The prompt of `askForConfirmation`. -/
def prompt (s : String) : String := s ++ " [y/n]: "

/-- The loop of `askForConfirmation` over the results of `ReadString`. -/
def askLoop (s : String) : List (List Char) → List String → Bool × List String
  | [], out =>
    (false, out ++ [prompt s, "Could not get confirmation from StdIn EOF\n"])
  | line :: rest, out =>
    let response := toLower (trimSpace line)
    if response = ['y'] ∨ response = ['y', 'e', 's'] then (true, out ++ [prompt s])
    else if response = ['n'] ∨ response = ['n', 'o'] then (false, out ++ [prompt s])
    else askLoop s rest (out ++ [prompt s])

/-- The function `askForConfirmation(s, in, out)`: the answer and the sink. -/
def askForConfirmation (s : String) (inp : List Char) (out : List String) :
    Bool × List String :=
  askLoop s (readStrings inp).1 out

/-! ## Deleting -/

/-- What `removeFn` acts on: the file system and the remover's own state. -/
structure World (σ : Type) where
  fs : Node
  priv : σ

/-- The type of `removeFn`: the returned error and the world afterwards. -/
abbrev RemoveFn (σ : Type) := Path → World σ → Option String × World σ

/-- One invocation of `removeFn`: its argument, the file system it was applied
to, and the error it returned. -/
structure Call where
  path : Path
  fsBefore : Node
  err : Option String

/-- The state of the deletion loops: the world, the invocations made so far,
and the slice `errs`. -/
structure Exec (σ : Type) where
  world : World σ
  calls : List Call
  errs : List String

/-- The statements `e := removeFn(p); if e != nil { errs = append(errs, e) }`. -/
def invoke {σ : Type} (removeFn : RemoveFn σ) (p : Path) (s : Exec σ) : Exec σ :=
  match removeFn p s.world with
  | (none, w) => ⟨w, s.calls ++ [⟨p, s.world.fs, none⟩], s.errs⟩
  | (some e, w) => ⟨w, s.calls ++ [⟨p, s.world.fs, some e⟩], s.errs ++ [e]⟩

/-- The loop of `Remove` over `filepaths`. -/
def removeFiles {σ : Type} (removeFn : RemoveFn σ) : List Path → Exec σ → Exec σ
  | [], s => s
  | p :: rest, s => removeFiles removeFn rest (invoke removeFn p s)

/-- The loop of `Remove` over the candidate directories, given in the order in
which `range` yields them. -/
def removeMatchers {σ : Type} (removeFn : RemoveFn σ) : List Path → Exec σ → Exec σ
  | [], s => s
  | matcherPath :: rest, s =>
    if dirEmpty s.world.fs matcherPath then
      removeMatchers removeFn rest (invoke removeFn matcherPath s)
    else removeMatchers removeFn rest s

/-- What a run of `Remove` leaves behind. -/
structure Result (σ : Type) where
  out : List String
  calls : List Call
  errs : List String
  world : World σ
  panicked : Bool

/-- The text of `%v` for a slice of errors. -/
def showErrs (errs : List String) : String := "[" ++ String.intercalate " " errs ++ "]"

/-- The `if shouldConfirm ... else if !silent ...` statement of `Remove`:
whether the run goes on, and the sink. -/
def confirmGate (shouldConfirm silent : Bool) (plan : List Path) (inp : List Char)
    (out : List String) : Bool × List String :=
  if shouldConfirm then
    askForConfirmation "Continue?" inp
      (out ++ ["Will delete the following files:\n", listing plan])
  else if !silent then
    (true, out ++ ["Deleting the following files:\n", listing plan])
  else (true, out)

/-- The function `Remove`.  `rangePlan` and `rangeDel` give the order in which
the two `range` loops iterate over the set of candidate directories. -/
def Remove {σ : Type} (w : World σ) (rangePlan rangeDel : List Path → List Path)
    (path : Path) (recursive shouldConfirm dryRun silent : Bool)
    (inp : List Char) (removeFn : RemoveFn σ) : Result σ :=
  match getFilePaths w.fs recursive path [] with
  | none => ⟨[], [], [], w, true⟩
  | some ⟨_, _, some e, out⟩ => ⟨out ++ [e ++ "\n"], [], [], w, false⟩
  | some ⟨filepaths, matchersDirPaths, none, out⟩ =>
    if filepaths.length = 0 then ⟨out ++ ["No files to remove.\n"], [], [], w, false⟩
    else
      let plan := allFilepathsSorted w.fs rangePlan filepaths matchersDirPaths
      if dryRun then
        ⟨out ++ ["This is a dry-run. Would delete the following files:\n", listing plan],
          [], [], w, false⟩
      else
        let gate := confirmGate shouldConfirm silent plan inp out
        if !gate.1 then ⟨gate.2, [], [], w, false⟩
        else
          let s := removeFiles removeFn filepaths ⟨w, [], []⟩
          let s := removeMatchers removeFn (rangeDel matchersDirPaths) s
          if s.errs.length > 0 then
            ⟨gate.2 ++ ["There were some errors when trying to delete files: " ++ showErrs s.errs],
              s.calls, s.errs, s.world, false⟩
          else ⟨gate.2, s.calls, s.errs, s.world, false⟩

/-! ## A real delete -/

/-- A directory listing without the entry of the given name. -/
def eraseEntry (name : String) : List (String × Node) → List (String × Node)
  | [] => []
  | (n, c) :: rest => if n = name then rest else (n, c) :: eraseEntry name rest

/-- A directory listing with the entry of the given name replaced. -/
def setEntry (name : String) (node : Node) : List (String × Node) → List (String × Node)
  | [] => []
  | (n, c) :: rest => if n = name then (n, node) :: rest else (n, c) :: setEntry name node rest

/-- Go `os.Remove(path)` on the tree: a file or an empty directory is unlinked
from its parent; nothing when the call fails. -/
def removeAt : Node → Path → Option Node
  | _, [] => none
  | .dir true es, [name] =>
    match lookupEntry name es with
    | some (.file _ _) => some (.dir true (eraseEntry name es))
    | some (.dir _ []) => some (.dir true (eraseEntry name es))
    | _ => none
  | .dir true es, name :: next :: rest =>
    match lookupEntry name es with
    | some c =>
      match removeAt c (next :: rest) with
      | some c1 => some (.dir true (setEntry name c1 es))
      | none => none
    | none => none
  | .dir false _, _ :: _ => none
  | .file _ _, _ :: _ => none

/-- A `removeFn` that is `os.Remove`. -/
def osRemove : RemoveFn Unit := fun path w =>
  match removeAt w.fs path with
  | some fs1 => (none, ⟨fs1, ()⟩)
  | none => (some ("remove " ++ render path ++ ": failed"), w)

/-- A `removeFn` that records nothing and deletes nothing. -/
def noRemove : RemoveFn Unit := fun _ w => (none, w)

/-! ## What the walk visits, and well-formed trees -/

/-- A callback that records the paths it is called on with the `FileInfo` of a
non-directory, and never fails. -/
def recordFn : WalkFunc (List Path) := fun path info _ st =>
  match info with
  | some info => if info.isDir then some (st, none) else some (st ++ [path], none)
  | none => some (st, none)

/-- The non-directories the walk of `getFilePaths` visits, in order: what
`recordFn` records when it is walked over the same root in the same mode. -/
def visitedFiles (fs : Node) (recursive : Bool) (path : Path) : List Path :=
  let run := if recursive then Walk fs path recordFn [] else walkFilesInDir fs path recordFn []
  match run with
  | some (st, _) => st
  | none => []

mutual
/-- The calls `filepath.walk` makes to a callback that never fails. -/
def visits (path : Path) : Node → List (Path × FileInfo)
  | .file _ _ => [(path, ⟨Base path, false⟩)]
  | .dir true es => (path, ⟨Base path, true⟩) :: visitsEntries path es
  | .dir false _ => [(path, ⟨Base path, true⟩)]
/-- The calls made while the entries of a directory are walked. -/
def visitsEntries (path : Path) : List (String × Node) → List (Path × FileInfo)
  | [] => []
  | (name, child) :: rest => visits (Join path name) child ++ visitsEntries path rest
end

/-- A proper entry name: not empty, without a separator, and neither `.` nor
`..`. -/
def validName (name : String) : Bool :=
  name ≠ "" && !name.data.contains '/' && name ≠ "." && name ≠ ".."

mutual
/-- A well-formed tree: in every directory the entries have proper names, no
two of them the same. -/
def wellFormed : Node → Bool
  | .file _ _ => true
  | .dir _ es => (names es).all validName && decide (names es).Nodup && wellFormedEntries es
/-- Every node of a listing is well formed. -/
def wellFormedEntries : List (String × Node) → Bool
  | [] => true
  | (_, child) :: rest => wellFormed child && wellFormedEntries rest
end

/-- The calls the walk of `getFilePaths` makes to a callback that never
fails, in order. -/
def visitList (fs : Node) (recursive : Bool) (path : Path) : List (Path × FileInfo) :=
  if recursive then
    match lookup fs path with
    | some node => visits path node
    | none => []
  else
    match ioutilReadDir fs path with
    | .ok infos => infos.map fun info => (Join path info.name, info)
    | .error _ => []

/-- The effect of the callback of `getFilePaths` on its state when it is
called with a `FileInfo`. -/
def getFilePathsStep (fs : Node) (path : Path) (info : FileInfo) (st : WalkState) : WalkState :=
  match getFilePathsFn fs path (some info) none st with
  | some (st1, _) => st1
  | none => st

/-- The test of the callback of `getFilePaths` on a visited non-directory. -/
def isGeneratedGo (fs : Node) (path : Path) : Bool :=
  Ext path == ".go" && (isPegomockGenerated fs path []).1

/-- The candidate directories registered for a list of discovered files. -/
def registerMatchers (m : List Path) (filepaths : List Path) : List Path :=
  filepaths.foldl
    (fun m path => if Base (Dir path) == "matchers" then mapSet m (Dir path) else m) m

/-! ## Sample trees -/

/-- A generated file: the marker line and a package clause. -/
def generatedFile : Node := .file true (marker ++ [10, 112, 97, 99, 107, 97, 103, 101, 32, 97])

/-- A hand-written file. -/
def plainFile : Node := .file true [112, 97, 99, 107, 97, 103, 101, 32, 97, 10]

/-- A root with a generated mock, a hand-written file, and a `matchers`
directory that holds one generated matcher. -/
def sampleTree : Node :=
  .dir true [("matchers", .dir true [("foo_matcher.go", generatedFile)]),
    ("mock_foo.go", generatedFile), ("real_foo.go", plainFile)]

/-- A root with a generated mock next to an empty `matchers` directory. -/
def emptyMatchersTree : Node :=
  .dir true [("matchers", .dir true []), ("mock_foo.go", generatedFile)]

/-- A `matchers` directory that holds a generated file and a second `matchers`
directory with a generated file of its own. -/
def nestedTree : Node :=
  .dir true [("matchers", .dir true [("a.go", generatedFile),
    ("matchers", .dir true [("b.go", generatedFile)])])]

/-- A root whose only entry is a directory that cannot be read. -/
def lockedTree : Node :=
  .dir true [("locked", .dir false [("mock_foo.go", generatedFile)])]

/-! # Properties -/

/-! ## Confirmation -/

theorem readStrings_line (l rest : List Char) (hl : '\n' ∉ l) :
    readStrings (l ++ '\n' :: rest)
      = ((l ++ ['\n']) :: (readStrings rest).1, (readStrings rest).2) := by
  induction l with
  | nil => simp [readStrings]
  | cons c cs ih =>
    have hc : c ≠ '\n' := fun h => hl (by simp [h])
    have hcs : '\n' ∉ cs := fun h => hl (by simp [h])
    simp [readStrings, ih hcs, hc]

theorem readStrings_tail (tl : List Char) (h : '\n' ∉ tl) : readStrings tl = ([], tl) := by
  induction tl with
  | nil => rfl
  | cons c cs ih =>
    have hc : c ≠ '\n' := fun h1 => h (by simp [h1])
    have hcs : '\n' ∉ cs := fun h1 => h (by simp [h1])
    simp [readStrings, ih hcs, hc]

theorem readStrings_lines (pre : List (List Char)) (rest : List Char)
    (hpre : ∀ x ∈ pre, '\n' ∉ x) :
    readStrings ((pre.map fun x => x ++ ['\n']).flatten ++ rest)
      = ((pre.map fun x => x ++ ['\n']) ++ (readStrings rest).1, (readStrings rest).2) := by
  induction pre with
  | nil => simp
  | cons x xs ih =>
    have hx : '\n' ∉ x := hpre x (by simp)
    have hxs : ∀ y ∈ xs, '\n' ∉ y := fun y hy => hpre y (by simp [hy])
    have e : (((x :: xs).map fun x => x ++ ['\n']).flatten ++ rest)
        = x ++ '\n' :: ((xs.map fun x => x ++ ['\n']).flatten ++ rest) := by simp
    rw [e, readStrings_line _ _ hx, ih hxs]
    simp

theorem trimSpace_newline (l : List Char) : trimSpace (l ++ ['\n']) = trimSpace l := by
  unfold trimSpace
  by_cases h : ∀ x ∈ l, isSpace x = true
  · have h1 : List.dropWhile isSpace l = [] := List.dropWhile_eq_nil_iff.2 h
    have h2 : List.dropWhile isSpace (l ++ ['\n']) = [] := by
      apply List.dropWhile_eq_nil_iff.2
      intro x hx
      rcases List.mem_append.1 hx with hx | hx
      · exact h x hx
      · simp at hx; subst hx; decide
    rw [h1, h2]
  · have h1 : List.dropWhile isSpace (l ++ ['\n']) = List.dropWhile isSpace l ++ ['\n'] := by
      rw [List.dropWhile_append]
      have : ¬ (List.dropWhile isSpace l).isEmpty = true := by
        rw [List.isEmpty_iff, List.dropWhile_eq_nil_iff]; exact h
      simp [this]
    rw [h1, List.reverse_append]
    have : isSpace '\n' = true := by decide
    simp [List.dropWhile_cons, this]

theorem askLoop_skip (s : String) (pre : List (List Char)) (ls : List (List Char))
    (out : List String)
    (hpre : ∀ x ∈ pre, toLower (trimSpace x) ∉ [['y'], ['y', 'e', 's'], ['n'], ['n', 'o']]) :
    askLoop s ((pre.map fun x => x ++ ['\n']) ++ ls) out
      = askLoop s ls (out ++ List.replicate pre.length (prompt s)) := by
  induction pre generalizing out with
  | nil => simp
  | cons x xs ih =>
    have hx := hpre x (by simp)
    have hxs : ∀ y ∈ xs, toLower (trimSpace y) ∉ [['y'], ['y', 'e', 's'], ['n'], ['n', 'o']] :=
      fun y hy => hpre y (by simp [hy])
    simp only [List.mem_cons, List.mem_singleton, List.not_mem_nil, or_false, not_or] at hx
    obtain ⟨h1, h2, h3, h4⟩ := hx
    simp only [List.map_cons, List.cons_append, askLoop, trimSpace_newline, h1, h2, h3, h4,
      or_self, if_false]
    have := ih (out ++ [prompt s]) hxs
    simp only [List.append_eq] at this ⊢
    rw [this]
    simp [List.replicate_succ, List.append_assoc]

theorem askLoop_answer (s : String) (l : List Char) (ls : List (List Char)) (out : List String)
    (hrec : toLower (trimSpace l) ∈ [['y'], ['y', 'e', 's'], ['n'], ['n', 'o']]) :
    askLoop s ((l ++ ['\n']) :: ls) out
      = (decide (toLower (trimSpace l) ∈ [['y'], ['y', 'e', 's']]), out ++ [prompt s]) := by
  simp only [List.mem_cons, List.mem_singleton, List.not_mem_nil, or_false] at hrec
  simp only [askLoop, trimSpace_newline]
  rcases hrec with h | h | h | h <;> simp [h]

/-- C8: `askForConfirmation` is decided by the first line of the input whose
trimmed, lower-cased text is `y`, `yes`, `n` or `no`: the answer is true for
`y` and `yes` and false for `n` and `no`, the lines before it and the input
after it do not matter, and the prompt `<message> [y/n]: ` is written once for
every line read up to and including that line, and nothing else is written. -/
theorem askForConfirmation_first_answer (s : String) (pre : List (List Char))
    (l rest : List Char) (out : List String)
    (hpre : ∀ x ∈ pre, '\n' ∉ x ∧
      toLower (trimSpace x) ∉ [['y'], ['y', 'e', 's'], ['n'], ['n', 'o']])
    (hl : '\n' ∉ l)
    (hrec : toLower (trimSpace l) ∈ [['y'], ['y', 'e', 's'], ['n'], ['n', 'o']]) :
    askForConfirmation s ((pre.map fun x => x ++ ['\n']).flatten ++ (l ++ '\n' :: rest)) out
      = (decide (toLower (trimSpace l) ∈ [['y'], ['y', 'e', 's']]),
          out ++ List.replicate (pre.length + 1) (prompt s)) := by
  unfold askForConfirmation
  rw [readStrings_lines pre _ (fun x hx => (hpre x hx).1), readStrings_line l rest hl]
  simp only []
  rw [askLoop_skip s pre _ out (fun x hx => (hpre x hx).2), askLoop_answer s l _ _ hrec]
  simp [List.replicate_succ', List.append_assoc]

/-- C8, on the input `maybe`, `yes`: the prompt is written twice and the
answer is true. -/
theorem askForConfirmation_first_answer_witness :
    (∀ x ∈ [['m', 'a', 'y', 'b', 'e']], '\n' ∉ x ∧
      toLower (trimSpace x) ∉ [['y'], ['y', 'e', 's'], ['n'], ['n', 'o']])
    ∧ '\n' ∉ ['y', 'e', 's']
    ∧ toLower (trimSpace ['y', 'e', 's']) ∈ [['y'], ['y', 'e', 's'], ['n'], ['n', 'o']]
    ∧ askForConfirmation "Continue?"
        (([['m', 'a', 'y', 'b', 'e']].map fun x => x ++ ['\n']).flatten
          ++ (['y', 'e', 's'] ++ '\n' :: [])) []
      = (decide (toLower (trimSpace ['y', 'e', 's']) ∈ [['y'], ['y', 'e', 's']]),
          [] ++ List.replicate ([['m', 'a', 'y', 'b', 'e']].length + 1) (prompt "Continue?")) :=
  ⟨by decide, by decide, by decide,
    askForConfirmation_first_answer "Continue?" [['m', 'a', 'y', 'b', 'e']] ['y', 'e', 's'] [] []
      (by decide) (by decide) (by decide)⟩

/-! ## The structure of a run -/

/-- C1: with `dryRun = true`, `Remove` never invokes `removeFn`, whatever the
tree, the root, the input, the remover, the iteration orders and the other
flags are; the world is left as it was. -/
theorem Remove_dryRun_no_calls {σ : Type} (w : World σ)
    (rangePlan rangeDel : List Path → List Path) (path : Path)
    (recursive shouldConfirm silent : Bool) (inp : List Char) (removeFn : RemoveFn σ) :
    (Remove w rangePlan rangeDel path recursive shouldConfirm true silent inp removeFn).calls = []
    ∧ (Remove w rangePlan rangeDel path recursive shouldConfirm true silent inp removeFn).world
        = w := by
  unfold Remove
  split
  · exact ⟨rfl, rfl⟩
  · exact ⟨rfl, rfl⟩
  · split
    · exact ⟨rfl, rfl⟩
    · simp

theorem invoke_spec {σ : Type} (removeFn : RemoveFn σ) (p : Path) (s : Exec σ) :
    (invoke removeFn p s).calls = s.calls ++ [⟨p, s.world.fs, (removeFn p s.world).1⟩]
    ∧ (invoke removeFn p s).errs
        = s.errs ++ [(⟨p, s.world.fs, (removeFn p s.world).1⟩ : Call)].filterMap Call.err := by
  unfold invoke
  split <;> rename_i h <;> simp [h]

theorem removeFiles_spec {σ : Type} (removeFn : RemoveFn σ) (ps : List Path) (s : Exec σ) :
    ∃ extra : List Call,
      (removeFiles removeFn ps s).calls = s.calls ++ extra
      ∧ (removeFiles removeFn ps s).errs = s.errs ++ extra.filterMap Call.err
      ∧ extra.map Call.path = ps := by
  induction ps generalizing s with
  | nil => exact ⟨[], by simp [removeFiles]⟩
  | cons p rest ih =>
    obtain ⟨extra, h1, h2, h3⟩ := ih (invoke removeFn p s)
    obtain ⟨i1, i2⟩ := invoke_spec removeFn p s
    refine ⟨⟨p, s.world.fs, (removeFn p s.world).1⟩ :: extra, ?_, ?_, ?_⟩
    · simp only [removeFiles]; rw [h1, i1]; simp
    · simp only [removeFiles]; rw [h2, i2, List.append_assoc, ← List.filterMap_append]; rfl
    · simp [h3]

theorem removeMatchers_spec {σ : Type} (removeFn : RemoveFn σ) (ds : List Path) (s : Exec σ) :
    ∃ extra : List Call,
      (removeMatchers removeFn ds s).calls = s.calls ++ extra
      ∧ (removeMatchers removeFn ds s).errs = s.errs ++ extra.filterMap Call.err
      ∧ ∀ c ∈ extra, c.path ∈ ds ∧ dirEmpty c.fsBefore c.path = true := by
  induction ds generalizing s with
  | nil => exact ⟨[], by simp [removeMatchers]⟩
  | cons d rest ih =>
    by_cases hd : dirEmpty s.world.fs d = true
    · obtain ⟨extra, h1, h2, h3⟩ := ih (invoke removeFn d s)
      obtain ⟨i1, i2⟩ := invoke_spec removeFn d s
      refine ⟨⟨d, s.world.fs, (removeFn d s.world).1⟩ :: extra, ?_, ?_, ?_⟩
      · simp only [removeMatchers, hd, if_true]; rw [h1, i1]; simp
      · simp only [removeMatchers, hd, if_true]
        rw [h2, i2, List.append_assoc, ← List.filterMap_append]; rfl
      · intro c hc
        rcases List.mem_cons.1 hc with hc | hc
        · subst hc; exact ⟨by simp, hd⟩
        · exact ⟨List.mem_cons_of_mem _ (h3 c hc).1, (h3 c hc).2⟩
    · obtain ⟨extra, h1, h2, h3⟩ := ih s
      refine ⟨extra, ?_, ?_, ?_⟩
      · simp only [removeMatchers, hd]; exact h1
      · simp only [removeMatchers, hd]; exact h2
      · intro c hc
        exact ⟨List.mem_cons_of_mem _ (h3 c hc).1, (h3 c hc).2⟩

theorem Remove_eq_dry {σ : Type} (w : World σ) (rangePlan rangeDel : List Path → List Path)
    (path : Path) (recursive shouldConfirm silent : Bool) (inp : List Char)
    (removeFn : RemoveFn σ) (fp mp : List Path) (out : List String)
    (hfound : getFilePaths w.fs recursive path [] = some ⟨fp, mp, none, out⟩) (hne : fp ≠ []) :
    Remove w rangePlan rangeDel path recursive shouldConfirm true silent inp removeFn
      = ⟨out ++ ["This is a dry-run. Would delete the following files:\n",
          listing (allFilepathsSorted w.fs rangePlan fp mp)], [], [], w, false⟩ := by
  have hlen : ¬ fp.length = 0 := fun h => hne (List.length_eq_zero.1 h)
  simp [Remove, hfound, hlen]

theorem Remove_eq_stop {σ : Type} (w : World σ) (rangePlan rangeDel : List Path → List Path)
    (path : Path) (recursive shouldConfirm silent : Bool) (inp : List Char)
    (removeFn : RemoveFn σ) (fp mp : List Path) (out : List String)
    (hfound : getFilePaths w.fs recursive path [] = some ⟨fp, mp, none, out⟩) (hne : fp ≠ [])
    (hgate : (confirmGate shouldConfirm silent (allFilepathsSorted w.fs rangePlan fp mp)
      inp out).1 = false) :
    Remove w rangePlan rangeDel path recursive shouldConfirm false silent inp removeFn
      = ⟨(confirmGate shouldConfirm silent (allFilepathsSorted w.fs rangePlan fp mp) inp out).2,
          [], [], w, false⟩ := by
  have hlen : ¬ fp.length = 0 := fun h => hne (List.length_eq_zero.1 h)
  simp [Remove, hfound, hlen, hgate]

theorem Remove_eq_exec {σ : Type} (w : World σ) (rangePlan rangeDel : List Path → List Path)
    (path : Path) (recursive shouldConfirm silent : Bool) (inp : List Char)
    (removeFn : RemoveFn σ) (fp mp : List Path) (out : List String)
    (hfound : getFilePaths w.fs recursive path [] = some ⟨fp, mp, none, out⟩) (hne : fp ≠ [])
    (hgate : (confirmGate shouldConfirm silent (allFilepathsSorted w.fs rangePlan fp mp)
      inp out).1 = true) :
    Remove w rangePlan rangeDel path recursive shouldConfirm false silent inp removeFn
      = ⟨(confirmGate shouldConfirm silent (allFilepathsSorted w.fs rangePlan fp mp) inp out).2
            ++ (if 0 < (removeMatchers removeFn (rangeDel mp)
                  (removeFiles removeFn fp ⟨w, [], []⟩)).errs.length then
                ["There were some errors when trying to delete files: "
                  ++ showErrs (removeMatchers removeFn (rangeDel mp)
                      (removeFiles removeFn fp ⟨w, [], []⟩)).errs]
              else []),
          (removeMatchers removeFn (rangeDel mp) (removeFiles removeFn fp ⟨w, [], []⟩)).calls,
          (removeMatchers removeFn (rangeDel mp) (removeFiles removeFn fp ⟨w, [], []⟩)).errs,
          (removeMatchers removeFn (rangeDel mp) (removeFiles removeFn fp ⟨w, [], []⟩)).world,
          false⟩ := by
  have hlen : ¬ fp.length = 0 := fun h => hne (List.length_eq_zero.1 h)
  simp only [Remove, hfound, hlen, hgate, if_false, Bool.not_true, Bool.false_eq_true]
  split <;> simp

/-! ## The walk as a list of visits -/

mutual
theorem walk_eq_foldl {σ : Type} (walkFn : WalkFunc σ) (g : Path → FileInfo → σ → σ)
    (hfn : ∀ path info err st, walkFn path (some info) err st = some (g path info st, none)) :
    (node : Node) → (path : Path) → (st : σ) →
      walk walkFn path node st
        = some ((visits path node).foldl (fun st v => g v.1 v.2 st) st, none)
  | .file _ _, path, st => by simp [walk, visits, hfn]
  | .dir true es, path, st => by
    simp only [walk, visits, hfn, List.foldl_cons]
    exact walkEntries_eq_foldl walkFn g hfn es path _
  | .dir false _, path, st => by simp [walk, visits, hfn]
theorem walkEntries_eq_foldl {σ : Type} (walkFn : WalkFunc σ) (g : Path → FileInfo → σ → σ)
    (hfn : ∀ path info err st, walkFn path (some info) err st = some (g path info st, none)) :
    (es : List (String × Node)) → (path : Path) → (st : σ) →
      walkEntries walkFn path es st
        = some ((visitsEntries path es).foldl (fun st v => g v.1 v.2 st) st, none)
  | [], path, st => by simp [walkEntries, visitsEntries]
  | (name, child) :: rest, path, st => by
    simp only [walkEntries, visitsEntries, List.foldl_append,
      walk_eq_foldl walkFn g hfn child (Join path name) st]
    exact walkEntries_eq_foldl walkFn g hfn rest path _
end

theorem walkInfos_eq_foldl {σ : Type} (walkFn : WalkFunc σ) (g : Path → FileInfo → σ → σ)
    (hfn : ∀ path info err st, walkFn path (some info) err st = some (g path info st, none))
    (path : Path) (infos : List FileInfo) (st : σ) :
    walkInfos walkFn path infos st
      = some ((infos.map fun info => (Join path info.name, info)).foldl
          (fun st v => g v.1 v.2 st) st) := by
  induction infos generalizing st with
  | nil => rfl
  | cons info rest ih => simp [walkInfos, hfn, ih]

theorem isPegomockGenerated_verdict (fs : Node) (path : Path) (out : List String) :
    (isPegomockGenerated fs path out).1 = (isPegomockGenerated fs path []).1 := by
  unfold isPegomockGenerated
  split <;> try rfl
  split <;> try rfl
  split <;> rfl

theorem isPegomockGenerated_out (fs : Node) (path : Path) (out : List String) :
    ∃ extra, (isPegomockGenerated fs path out).2 = out ++ extra := by
  unfold isPegomockGenerated
  split
  · exact ⟨_, rfl⟩
  · exact ⟨_, rfl⟩
  · exact ⟨_, rfl⟩
  · exact ⟨_, rfl⟩
  · split
    · exact ⟨_, rfl⟩
    · split <;> exact ⟨[], by simp⟩

theorem getFilePathsFn_some (fs : Node) (path : Path) (info : FileInfo) (err : Option String)
    (st : WalkState) :
    getFilePathsFn fs path (some info) err st = some (getFilePathsStep fs path info st, none) := by
  unfold getFilePathsStep getFilePathsFn
  simp only []
  split
  · split
    · split <;> rfl
    · rfl
  · rfl

theorem getFilePathsStep_filepaths (fs : Node) (path : Path) (info : FileInfo)
    (st : WalkState) :
    (getFilePathsStep fs path info st).filepaths
      = st.filepaths ++ (if !info.isDir && isGeneratedGo fs path then [path] else [])
    ∧ (getFilePathsStep fs path info st).matcherPaths
      = registerMatchers st.matcherPaths
          (if !info.isDir && isGeneratedGo fs path then [path] else []) := by
  unfold getFilePathsStep getFilePathsFn isGeneratedGo
  simp only []
  rw [← isPegomockGenerated_verdict fs path st.out]
  by_cases h1 : (!info.isDir && Ext path == ".go") = true
  · rw [if_pos h1]
    rw [Bool.and_eq_true] at h1
    rcases hg : isPegomockGenerated fs path st.out with ⟨b, o⟩
    cases b
    · simp [h1.1, h1.2, registerMatchers]
    · by_cases hm : (Base (Dir path) == "matchers") = true
      · have hm1 : Base (Dir path) = "matchers" := by simpa using hm
        simp [h1.1, h1.2, hm1, registerMatchers]
      · have hm1 : ¬ Base (Dir path) = "matchers" := by simpa using hm
        simp [h1.1, h1.2, hm1, registerMatchers]
  · rw [if_neg h1]
    have : (!info.isDir && (Ext path == ".go" && (isPegomockGenerated fs path st.out).1)) = false := by
      rw [← Bool.and_assoc]
      simp only [Bool.not_eq_true] at h1
      rw [h1]; rfl
    simp [this, registerMatchers]

theorem registerMatchers_append (m : List Path) (a b : List Path) :
    registerMatchers m (a ++ b) = registerMatchers (registerMatchers m a) b := by
  simp [registerMatchers, List.foldl_append]

theorem foldl_getFilePathsStep (fs : Node) (vs : List (Path × FileInfo)) (st : WalkState) :
    (vs.foldl (fun st v => getFilePathsStep fs v.1 v.2 st) st).filepaths
      = st.filepaths
        ++ (vs.filter fun v => !v.2.isDir && isGeneratedGo fs v.1).map Prod.fst
    ∧ (vs.foldl (fun st v => getFilePathsStep fs v.1 v.2 st) st).matcherPaths
      = registerMatchers st.matcherPaths
          ((vs.filter fun v => !v.2.isDir && isGeneratedGo fs v.1).map Prod.fst) := by
  induction vs generalizing st with
  | nil => simp [registerMatchers]
  | cons v rest ih =>
    obtain ⟨h1, h2⟩ := ih (getFilePathsStep fs v.1 v.2 st)
    obtain ⟨s1, s2⟩ := getFilePathsStep_filepaths fs v.1 v.2 st
    simp only [List.foldl_cons]
    rw [h1, h2, s1, s2]
    by_cases hv : (!v.2.isDir && isGeneratedGo fs v.1) = true
    · simp [List.filter_cons, hv, registerMatchers]
    · simp [List.filter_cons, hv, registerMatchers]

theorem recordFn_some (path : Path) (info : FileInfo) (err : Option String) (st : List Path) :
    recordFn path (some info) err st
      = some ((fun p i st => if i.isDir = true then st else st ++ [p]) path info st, none) := by
  unfold recordFn
  simp only []
  split <;> rfl

theorem foldl_record (vs : List (Path × FileInfo)) (st : List Path) :
    vs.foldl (fun st v => (fun p (i : FileInfo) st => if i.isDir = true then st else st ++ [p])
        v.1 v.2 st) st
      = st ++ (vs.filter fun v => !v.2.isDir).map Prod.fst := by
  induction vs generalizing st with
  | nil => simp
  | cons v rest ih =>
    simp only [List.foldl_cons]
    rw [ih]
    by_cases hv : v.2.isDir = true
    · simp [List.filter_cons, hv]
    · simp [List.filter_cons, hv]

theorem filter_generated_visits (fs : Node) (vs : List (Path × FileInfo)) :
    (vs.filter fun v => !v.2.isDir && isGeneratedGo fs v.1).map Prod.fst
      = ((vs.filter fun v => !v.2.isDir).map Prod.fst).filter (isGeneratedGo fs) := by
  induction vs with
  | nil => rfl
  | cons v rest ih =>
    by_cases hv : v.2.isDir = true
    · simp [List.filter_cons, hv, ih]
    · by_cases hg : isGeneratedGo fs v.1 = true
      · simp [List.filter_cons, hv, hg, ih]
      · simp [List.filter_cons, hv, hg, ih]

theorem visitedFiles_eq (fs : Node) (recursive : Bool) (path : Path) :
    visitedFiles fs recursive path
      = ((visitList fs recursive path).filter fun v => !v.2.isDir).map Prod.fst := by
  unfold visitedFiles visitList
  cases recursive
  · simp only [Bool.false_eq_true, if_false, walkFilesInDir]
    cases h : ioutilReadDir fs path with
    | ok infos =>
      simp only [walkInfos_eq_foldl recordFn _ recordFn_some, foldl_record]
      simp
    | error e => simp [walkInfos]
  · simp only [if_true, Walk]
    cases h : lookup fs path with
    | none => simp [recordFn]
    | some node =>
      simp only [walk_eq_foldl recordFn _ recordFn_some, foldl_record]
      simp

theorem getFilePaths_panic (fs : Node) (path : Path) (out : List String)
    (h : lookup fs path = none) : getFilePaths fs true path out = none := by
  simp [getFilePaths, Walk, h, getFilePathsFn]

theorem getFilePaths_eq (fs : Node) (recursive : Bool) (path : Path) (out : List String)
    (h : recursive = true → lookup fs path ≠ none) :
    ∃ out1, getFilePaths fs recursive path out
      = some ⟨(visitedFiles fs recursive path).filter (isGeneratedGo fs),
          registerMatchers [] ((visitedFiles fs recursive path).filter (isGeneratedGo fs)),
          none, out1⟩ := by
  rw [visitedFiles_eq, ← filter_generated_visits]
  unfold getFilePaths visitList
  cases recursive
  · simp only [Bool.false_eq_true, if_false, walkFilesInDir]
    cases hr : ioutilReadDir fs path with
    | ok infos =>
      simp only [walkInfos_eq_foldl (getFilePathsFn fs) _ (getFilePathsFn_some fs)]
      obtain ⟨h1, h2⟩ := foldl_getFilePathsStep fs
        (infos.map fun info => (Join path info.name, info)) ⟨[], [], out⟩
      simp only [List.nil_append] at h1 h2
      refine ⟨((infos.map fun info => (Join path info.name, info)).foldl
        (fun st v => getFilePathsStep fs v.1 v.2 st) ⟨[], [], out⟩).out, ?_⟩
      rw [← h1, h2, h1]
    | error e => exact ⟨out, by simp [walkInfos, registerMatchers]⟩
  · simp only [if_true, Walk]
    cases hl : lookup fs path with
    | none => exact absurd hl (h rfl)
    | some node =>
      simp only [walk_eq_foldl (getFilePathsFn fs) _ (getFilePathsFn_some fs)]
      obtain ⟨h1, h2⟩ := foldl_getFilePathsStep fs (visits path node) ⟨[], [], out⟩
      simp only [List.nil_append] at h1 h2
      refine ⟨((visits path node).foldl
        (fun st v => getFilePathsStep fs v.1 v.2 st) ⟨[], [], out⟩).out, ?_⟩
      rw [← h1, h2, h1]

theorem getFilePaths_some (fs : Node) (recursive : Bool) (path : Path) (out : List String)
    (found : Found) (h : getFilePaths fs recursive path out = some found) :
    found.err = none
    ∧ found.filepaths = (visitedFiles fs recursive path).filter (isGeneratedGo fs)
    ∧ found.matcherPaths = registerMatchers [] found.filepaths := by
  have hroot : recursive = true → lookup fs path ≠ none := by
    intro hr hl
    subst hr
    rw [getFilePaths_panic fs path out hl] at h
    exact Option.noConfusion h
  obtain ⟨out1, he⟩ := getFilePaths_eq fs recursive path out hroot
  rw [he] at h
  cases h
  exact ⟨rfl, rfl, rfl⟩

/-! ## The marker test -/

theorem hasPrefix_iff (s sub : List Nat) : hasPrefix s sub = true ↔ sub <+: s := by
  induction s generalizing sub with
  | nil => cases sub <;> simp [hasPrefix]
  | cons c cs ih =>
    cases sub with
    | nil => simp [hasPrefix]
    | cons d ds =>
      simp only [hasPrefix, Bool.and_eq_true, decide_eq_true_eq, ih, List.cons_prefix_cons]
      constructor
      · rintro ⟨h1, h2⟩; exact ⟨h1.symm, h2⟩
      · rintro ⟨h1, h2⟩; exact ⟨h1.symm, h2⟩

theorem Contains_iff (s sub : List Nat) : Contains s sub = true ↔ sub <:+: s := by
  induction s with
  | nil =>
    simp only [Contains, hasPrefix_iff, List.prefix_nil, List.infix_nil]
  | cons c cs ih =>
    simp only [Contains, Bool.or_eq_true, hasPrefix_iff, ih, List.infix_cons_iff]

theorem hasPrefix_padding (k : Nat) (sub : List Nat) (h0 : 0 ∉ sub) (s : List Nat) :
    hasPrefix (s ++ List.replicate k 0) sub = hasPrefix s sub := by
  induction s generalizing sub with
  | nil =>
    cases sub with
    | nil => simp [hasPrefix]
    | cons d ds =>
      have hd : ¬ 0 = d := fun h => h0 (by simp [h])
      cases k with
      | zero => simp [hasPrefix]
      | succ k => simp [hasPrefix, List.replicate_succ, hd]
  | cons c cs ih =>
    cases sub with
    | nil => simp [hasPrefix]
    | cons d ds =>
      have hds : 0 ∉ ds := fun h => h0 (by simp [h])
      simp [hasPrefix, ih ds hds]

theorem Contains_zeros (k : Nat) (sub : List Nat) (h0 : 0 ∉ sub) :
    Contains (List.replicate k 0) sub = hasPrefix [] sub := by
  induction k with
  | zero => simp [Contains]
  | succ k ih =>
    cases sub with
    | nil => simp [Contains, List.replicate_succ, hasPrefix]
    | cons d ds =>
      have hd : ¬ 0 = d := fun h => h0 (by simp [h])
      rw [List.replicate_succ, Contains, ih]
      simp [hasPrefix, hd]

theorem Contains_padding (k : Nat) (sub : List Nat) (h0 : 0 ∉ sub) (s : List Nat) :
    Contains (s ++ List.replicate k 0) sub = Contains s sub := by
  induction s with
  | nil => simp [Contains, Contains_zeros k sub h0]
  | cons c cs ih =>
    have := hasPrefix_padding k sub h0 (c :: cs)
    simp only [List.cons_append] at this ⊢
    simp only [Contains, this, ih]

theorem marker_no_zero : 0 ∉ marker := by decide

theorem isPegomockGenerated_iff (fs : Node) (path : Path) (out : List String) :
    (isPegomockGenerated fs path out).1 = true
      ↔ ∃ content, lookup fs path = some (.file true content)
          ∧ marker <:+: content.take 50 := by
  unfold isPegomockGenerated
  split
  · rename_i h; simp [h]
  · rename_i h; simp [h]
  · rename_i h; simp [h]
  · rename_i h; simp [h]
  · rename_i content h
    rw [h]
    cases content with
    | nil =>
      simp only [fileRead, List.take_nil, List.infix_nil]
      constructor
      · intro hf; exact absurd hf (by simp)
      · rintro ⟨c, hc, hm⟩
        have : c = [] := by simpa using hc.symm
        subst this
        simp only [List.take_nil, List.infix_nil] at hm
        exact absurd hm (by decide)
    | cons b bs =>
      simp only [fileRead]
      rw [Contains_padding _ _ marker_no_zero]
      by_cases hc : Contains (List.take 50 (b :: bs)) marker = true
      · simp only [hc, if_true, true_iff]
        exact ⟨b :: bs, rfl, (Contains_iff _ _).1 hc⟩
      · simp only [hc]
        constructor
        · intro hf; exact absurd hf (by simp)
        · rintro ⟨c, hc1, hm⟩
          have : c = b :: bs := by simpa using hc1.symm
          subst this
          exact absurd ((Contains_iff _ _).2 hm) hc

/-! ## Path resolution -/

theorem lookup_append (fs : Node) (a b : Path) :
    lookup fs (a ++ b) = (lookup fs a).bind fun node => lookup node b := by
  induction a generalizing fs with
  | nil => simp [lookup]
  | cons n rest ih =>
    cases fs with
    | file r c => simp [lookup]
    | dir r es =>
      cases r with
      | false => simp [lookup]
      | true =>
        simp only [List.cons_append, lookup]
        cases lookupEntry n es with
        | none => simp
        | some c => simp [ih]

theorem lookup_Join (fs : Node) (d : Path) (name : String) :
    lookup fs (Join d name)
      = (lookup fs d).bind fun node =>
          match node with
          | .dir true es => lookupEntry name es
          | _ => none := by
  unfold Join
  rw [lookup_append]
  cases lookup fs d with
  | none => rfl
  | some node =>
    cases node with
    | file r c => simp [lookup]
    | dir r es =>
      cases r with
      | false => simp [lookup]
      | true =>
        simp only [Option.some_bind, lookup]
        cases lookupEntry name es <;> simp [lookup]

theorem Join_Dir_Base (p : Path) (h : p ≠ []) : Join (Dir p) (Base p) = p := by
  unfold Join Dir Base
  rw [List.getLast?_eq_getLast _ h]
  exact List.dropLast_append_getLast h

theorem Dir_Join (d : Path) (name : String) : Dir (Join d name) = d := by
  simp [Dir, Join]

theorem Base_Join (d : Path) (name : String) : Base (Join d name) = name := by
  simp [Base, Join]

theorem lookup_Dir_of_file (fs : Node) (p : Path) (r : Bool) (c : List Nat) (hp : p ≠ [])
    (h : lookup fs p = some (.file r c)) :
    ∃ es, lookup fs (Dir p) = some (.dir true es) := by
  rw [← Join_Dir_Base p hp, lookup_Join] at h
  cases hd : lookup fs (Dir p) with
  | none => simp [hd] at h
  | some node =>
    cases node with
    | file r1 c1 => simp [hd] at h
    | dir r1 es =>
      cases r1 with
      | false => simp [hd] at h
      | true => exact ⟨es, rfl⟩

theorem lookupEntry_mem_names (name : String) (es : List (String × Node)) (c : Node)
    (h : lookupEntry name es = some c) : name ∈ names es := by
  induction es with
  | nil => simp [lookupEntry] at h
  | cons e rest ih =>
    obtain ⟨n, c1⟩ := e
    by_cases hn : n = name
    · simp [names, hn]
    · simp only [lookupEntry, hn, if_false] at h
      simp only [names, List.map_cons, List.mem_cons]
      exact Or.inr (ih h)

theorem lookupEntry_of_mem_names (name : String) (es : List (String × Node))
    (h : name ∈ names es) : ∃ c, lookupEntry name es = some c := by
  induction es with
  | nil => simp [names] at h
  | cons e rest ih =>
    obtain ⟨n, c1⟩ := e
    by_cases hn : n = name
    · exact ⟨c1, by simp [lookupEntry, hn]⟩
    · have : name ∈ names rest := by
        simp only [names, List.map_cons, List.mem_cons] at h
        rcases h with h | h
        · exact absurd h.symm hn
        · exact h
      obtain ⟨c, hc⟩ := ih this
      exact ⟨c, by simp [lookupEntry, hn, hc]⟩

/-! ## Classifying directories -/

theorem mem_mapSet (m : List Path) (k x : Path) : x ∈ mapSet m k ↔ x ∈ m ∨ x = k := by
  unfold mapSet
  split
  · rename_i h
    constructor
    · exact Or.inl
    · rintro (h1 | h1)
      · exact h1
      · subst h1; exact h
  · simp

theorem nodup_mapSet (m : List Path) (k : Path) (h : m.Nodup) : (mapSet m k).Nodup := by
  unfold mapSet
  split
  · exact h
  · rename_i hk
    rw [List.nodup_append]
    refine ⟨h, List.nodup_singleton k, ?_⟩
    intro a ha hb
    simp only [List.mem_singleton] at hb
    subst hb
    exact hk ha

theorem mem_foldl_mapSet (root : Path) (a : List String) (m : List Path) (x : Path) :
    x ∈ a.foldl (fun m s => mapSet m (Join root s)) m ↔ x ∈ m ∨ ∃ s ∈ a, x = Join root s := by
  induction a generalizing m with
  | nil => simp
  | cons s rest ih =>
    simp only [List.foldl_cons, ih, mem_mapSet, List.mem_cons]
    constructor
    · rintro ((h | h) | ⟨t, ht, hx⟩)
      · exact Or.inl h
      · exact Or.inr ⟨s, Or.inl rfl, h⟩
      · exact Or.inr ⟨t, Or.inr ht, hx⟩
    · rintro (h | ⟨t, ht | ht, hx⟩)
      · exact Or.inl (Or.inl h)
      · subst ht; exact Or.inl (Or.inr hx)
      · exact Or.inr ⟨t, ht, hx⟩

theorem mem_foldl_mapDelete (b : List Path) (m : List Path) (x : Path) :
    x ∈ b.foldl (fun m s => mapDelete m s) m ↔ x ∈ m ∧ x ∉ b := by
  induction b generalizing m with
  | nil => simp
  | cons s rest ih =>
    rw [List.foldl_cons, ih]
    simp only [mapDelete, List.mem_filter, List.mem_cons, not_or, decide_eq_true_eq, ne_eq,
      decide_not, Bool.not_eq_true', decide_eq_false_iff_not]
    tauto

theorem mem_difference (root : Path) (a : List String) (b : List Path) (x : Path) :
    x ∈ difference root a b ↔ (∃ s ∈ a, x = Join root s) ∧ x ∉ b := by
  unfold difference
  simp only [mem_foldl_mapDelete, mem_foldl_mapSet, List.not_mem_nil, false_or]

theorem containsOnlyGeneratedFiles_iff (fs : Node) (d : Path) (l : List Path) :
    containsOnlyGeneratedFiles fs d l = true
      ↔ ∃ es, lookup fs d = some (.dir true es) ∧ ∀ name ∈ names es, Join d name ∈ l := by
  unfold containsOnlyGeneratedFiles readdirnames
  have key : ∀ es : List (String × Node),
      ((difference d (names es) l).length = 0) ↔ ∀ name ∈ names es, Join d name ∈ l := by
    intro es
    rw [List.length_eq_zero, List.eq_nil_iff_forall_not_mem]
    constructor
    · intro h name hn
      by_contra hc
      exact h (Join d name) ((mem_difference _ _ _ _).2 ⟨⟨name, hn, rfl⟩, hc⟩)
    · intro h x hx
      obtain ⟨⟨name, hn, rfl⟩, hnot⟩ := (mem_difference _ _ _ _).1 hx
      exact hnot (h name hn)
  cases hl : lookup fs d with
  | none => simp
  | some node =>
    cases node with
    | file r c => simp
    | dir r es =>
      cases r with
      | false => simp
      | true =>
        simp only [Option.some.injEq, Node.dir.injEq, true_and, exists_eq_left']
        by_cases hk : (difference d (names es) l).length = 0
        · simp only [hk, if_true, true_iff]; exact (key es).1 hk
        · simp only [hk, if_false]
          constructor
          · intro hf; exact absurd hf (by simp)
          · intro h; exact absurd ((key es).2 h) hk

theorem containsOnlyGeneratedFiles_mono (fs : Node) (d : Path) (l l1 : List Path)
    (hsub : ∀ x ∈ l, x ∈ l1) (h : containsOnlyGeneratedFiles fs d l = true) :
    containsOnlyGeneratedFiles fs d l1 = true := by
  rw [containsOnlyGeneratedFiles_iff] at h ⊢
  obtain ⟨es, he, hall⟩ := h
  exact ⟨es, he, fun name hn => hsub _ (hall name hn)⟩

/-! ## The plan -/

theorem mem_appendMatchers (fs : Node) (ds : List Path) (acc : List Path) (p : Path) :
    p ∈ appendMatchers fs ds acc
      ↔ p ∈ acc ∨ ∃ before after, ds = before ++ p :: after
          ∧ containsOnlyGeneratedFiles fs p (appendMatchers fs before acc) = true := by
  induction ds generalizing acc with
  | nil => simp [appendMatchers]
  | cons d rest ih =>
    by_cases hd : containsOnlyGeneratedFiles fs d acc = true
    · simp only [appendMatchers, hd, if_true]
      rw [ih]
      constructor
      · rintro (h | ⟨b, a, hr, hc⟩)
        · rcases List.mem_append.1 h with h | h
          · exact Or.inl h
          · simp only [List.mem_singleton] at h
            subst h
            exact Or.inr ⟨[], rest, rfl, by simpa [appendMatchers] using hd⟩
        · exact Or.inr ⟨d :: b, a, by simp [hr], by simpa [appendMatchers, hd] using hc⟩
      · rintro (h | ⟨b, a, hr, hc⟩)
        · exact Or.inl (List.mem_append_left _ h)
        · cases b with
          | nil =>
            simp only [List.nil_append, List.cons.injEq] at hr
            obtain ⟨rfl, -⟩ := hr
            exact Or.inl (by simp)
          | cons b0 bs =>
            simp only [List.cons_append, List.cons.injEq] at hr
            obtain ⟨rfl, hr⟩ := hr
            exact Or.inr ⟨bs, a, hr, by simpa [appendMatchers, hd] using hc⟩
    · simp only [appendMatchers, hd, Bool.false_eq_true, if_false]
      rw [ih]
      constructor
      · rintro (h | ⟨b, a, hr, hc⟩)
        · exact Or.inl h
        · exact Or.inr ⟨d :: b, a, by simp [hr], by simpa [appendMatchers, hd] using hc⟩
      · rintro (h | ⟨b, a, hr, hc⟩)
        · exact Or.inl h
        · cases b with
          | nil =>
            simp only [List.nil_append, List.cons.injEq] at hr
            obtain ⟨rfl, -⟩ := hr
            simp only [appendMatchers] at hc
            exact absurd hc hd
          | cons b0 bs =>
            simp only [List.cons_append, List.cons.injEq] at hr
            obtain ⟨rfl, hr⟩ := hr
            exact Or.inr ⟨bs, a, hr, by simpa [appendMatchers, hd] using hc⟩

theorem appendMatchers_subset (fs : Node) (ds : List Path) (acc : List Path) (p : Path)
    (h : p ∈ appendMatchers fs ds acc) : p ∈ acc ∨ p ∈ ds := by
  rcases (mem_appendMatchers fs ds acc p).1 h with h | ⟨b, a, hr, -⟩
  · exact Or.inl h
  · exact Or.inr (by simp [hr])

theorem subset_appendMatchers (fs : Node) (ds : List Path) (acc : List Path) (p : Path)
    (h : p ∈ acc) : p ∈ appendMatchers fs ds acc :=
  (mem_appendMatchers fs ds acc p).2 (Or.inl h)

theorem nodup_appendMatchers (fs : Node) (ds : List Path) (acc : List Path)
    (hacc : acc.Nodup) (hds : ds.Nodup) (hdis : ∀ x ∈ ds, x ∉ acc) :
    (appendMatchers fs ds acc).Nodup := by
  induction ds generalizing acc with
  | nil => simpa [appendMatchers] using hacc
  | cons d rest ih =>
    have hd : d ∉ rest := (List.nodup_cons.1 hds).1
    have hrest : rest.Nodup := (List.nodup_cons.1 hds).2
    unfold appendMatchers
    split
    · apply ih _ _ hrest
      · intro x hx hmem
        rcases List.mem_append.1 hmem with h | h
        · exact hdis x (List.mem_cons_of_mem _ hx) h
        · simp only [List.mem_singleton] at h
          subst h
          exact hd hx
      · rw [List.nodup_append]
        refine ⟨hacc, List.nodup_singleton d, ?_⟩
        intro a ha hb
        simp only [List.mem_singleton] at hb
        subst hb
        exact hdis a (by simp) ha
    · exact ih _ hacc hrest (fun x hx => hdis x (List.mem_cons_of_mem _ hx))

/-! ## Sorting -/

theorem char_lt_iff (a b : Char) : a.toNat < b.toNat ↔ a < b := Iff.rfl

theorem ltChars_iff (a b : List Char) : ltChars a b = true ↔ a < b := by
  induction a generalizing b with
  | nil =>
    cases b with
    | nil => simp [ltChars]
    | cons b bs => simp [ltChars, List.nil_lt_cons]
  | cons a as ih =>
    cases b with
    | nil =>
      simp only [ltChars, Bool.false_eq_true, false_iff]
      exact not_lt_of_lt (List.nil_lt_cons a as)
    | cons b bs =>
      simp only [ltChars]
      by_cases h1 : a.toNat < b.toNat
      · simp only [h1, if_true, true_iff]
        exact List.Lex.rel ((char_lt_iff a b).1 h1)
      · by_cases h2 : b.toNat < a.toNat
        · simp only [h1, h2, if_true, if_false, Bool.false_eq_true, false_iff]
          exact not_lt_of_lt (List.Lex.rel ((char_lt_iff b a).1 h2))
        · have hab : a = b := by
            apply Char.ext
            apply UInt32.ext
            exact Nat.le_antisymm (Nat.le_of_not_lt h2) (Nat.le_of_not_lt h1)
          subst hab
          simp only [h1, if_false, ih]
          exact List.Lex.cons_iff.symm

theorem strLe_iff (a b : String) : strLe a b = true ↔ a ≤ b := by
  unfold strLe
  rw [Bool.not_eq_true', ← Bool.not_eq_true, ltChars_iff, String.le_iff_toList_le, not_lt]
  rfl

theorem sortStrings_perm (l : List Path) : (sortStrings l).Perm l :=
  List.perm_insertionSort _ l

theorem sortStrings_sorted (l : List Path) :
    List.Sorted (fun a b : String => a ≤ b) ((sortStrings l).map render) := by
  haveI : IsTotal Path (fun a b => strLe (render a) (render b) = true) :=
    ⟨fun a b => by simp only [strLe_iff]; exact le_total _ _⟩
  haveI : IsTrans Path (fun a b => strLe (render a) (render b) = true) :=
    ⟨fun a b c => by simp only [strLe_iff]; exact le_trans⟩
  have h := List.sorted_insertionSort (fun a b => strLe (render a) (render b) = true) l
  unfold List.Sorted at h ⊢
  rw [List.pairwise_map]
  exact h.imp (fun hab => (strLe_iff _ _).1 hab)

theorem mem_allFilepathsSorted (fs : Node) (range : List Path → List Path)
    (fp mp : List Path) (p : Path) :
    p ∈ allFilepathsSorted fs range fp mp ↔ p ∈ appendMatchers fs (range mp) fp :=
  (sortStrings_perm _).mem_iff

/-! ## Discovered files and candidate directories -/

theorem mem_registerMatchers (m fp : List Path) (d : Path) :
    d ∈ registerMatchers m fp
      ↔ d ∈ m ∨ ∃ p ∈ fp, Dir p = d ∧ Base d = "matchers" := by
  induction fp generalizing m with
  | nil => simp [registerMatchers]
  | cons q rest ih =>
    have hstep : registerMatchers m (q :: rest)
        = registerMatchers (if Base (Dir q) == "matchers" then mapSet m (Dir q) else m) rest := by
      simp [registerMatchers]
    rw [hstep, ih]
    by_cases hq : Base (Dir q) = "matchers"
    · simp only [hq, beq_self_eq_true, if_true, mem_mapSet, List.mem_cons]
      constructor
      · rintro ((h | h) | ⟨p, hp, h1, h2⟩)
        · exact Or.inl h
        · subst h; exact Or.inr ⟨q, Or.inl rfl, rfl, hq⟩
        · exact Or.inr ⟨p, Or.inr hp, h1, h2⟩
      · rintro (h | ⟨p, hp | hp, h1, h2⟩)
        · exact Or.inl (Or.inl h)
        · subst hp; exact Or.inl (Or.inr h1.symm)
        · exact Or.inr ⟨p, hp, h1, h2⟩
    · have hq1 : (Base (Dir q) == "matchers") = false := by simpa using hq
      simp only [hq1, Bool.false_eq_true, if_false, List.mem_cons]
      constructor
      · rintro (h | ⟨p, hp, h1, h2⟩)
        · exact Or.inl h
        · exact Or.inr ⟨p, Or.inr hp, h1, h2⟩
      · rintro (h | ⟨p, hp | hp, h1, h2⟩)
        · exact Or.inl h
        · subst hp; subst h1; exact absurd h2 hq
        · exact Or.inr ⟨p, hp, h1, h2⟩

theorem nodup_registerMatchers (m fp : List Path) (h : m.Nodup) :
    (registerMatchers m fp).Nodup := by
  induction fp generalizing m with
  | nil => simpa [registerMatchers] using h
  | cons q rest ih =>
    have hstep : registerMatchers m (q :: rest)
        = registerMatchers (if Base (Dir q) == "matchers" then mapSet m (Dir q) else m) rest := by
      simp [registerMatchers]
    rw [hstep]
    apply ih
    split
    · exact nodup_mapSet m _ h
    · exact h

theorem isGeneratedGo_iff (fs : Node) (p : Path) :
    isGeneratedGo fs p = true
      ↔ Ext p = ".go" ∧ ∃ content, lookup fs p = some (.file true content)
          ∧ marker <:+: content.take 50 := by
  unfold isGeneratedGo
  rw [Bool.and_eq_true, isPegomockGenerated_iff, beq_iff_eq]

/-- Every discovered path names a readable regular file with the marker. -/
theorem found_file (fs : Node) (recursive : Bool) (path : Path) (out : List String)
    (found : Found) (h : getFilePaths fs recursive path out = some found) (p : Path)
    (hp : p ∈ found.filepaths) :
    Ext p = ".go" ∧ ∃ content, lookup fs p = some (.file true content)
      ∧ marker <:+: content.take 50 := by
  obtain ⟨-, hfp, -⟩ := getFilePaths_some fs recursive path out found h
  rw [hfp, List.mem_filter] at hp
  exact (isGeneratedGo_iff fs p).1 hp.2

theorem Base_nil_ne : Base [] ≠ "matchers" := by decide

/-- Every candidate directory is named `matchers`, directly holds a discovered
file, and resolves to a directory that can be listed. -/
theorem found_matcher (fs : Node) (recursive : Bool) (path : Path) (out : List String)
    (found : Found) (h : getFilePaths fs recursive path out = some found) (d : Path) :
    d ∈ found.matcherPaths
      ↔ Base d = "matchers" ∧ ∃ name, Join d name ∈ found.filepaths := by
  obtain ⟨-, -, hmp⟩ := getFilePaths_some fs recursive path out found h
  rw [hmp, mem_registerMatchers]
  simp only [List.not_mem_nil, false_or]
  constructor
  · rintro ⟨p, hp, hd, hb⟩
    have hne : p ≠ [] := by
      rintro rfl
      simp only [Dir, List.dropLast_nil] at hd
      subst hd
      exact Base_nil_ne hb
    refine ⟨hb, Base p, ?_⟩
    rw [← hd, Join_Dir_Base p hne]
    exact hp
  · rintro ⟨hb, name, hn⟩
    exact ⟨Join d name, hn, Dir_Join d name, hb⟩

theorem found_matcher_dir (fs : Node) (recursive : Bool) (path : Path) (out : List String)
    (found : Found) (h : getFilePaths fs recursive path out = some found) (d : Path)
    (hd : d ∈ found.matcherPaths) :
    ∃ es, lookup fs d = some (.dir true es) := by
  obtain ⟨-, name, hn⟩ := (found_matcher fs recursive path out found h d).1 hd
  obtain ⟨-, c, hc, -⟩ := found_file fs recursive path out found h _ hn
  have := lookup_Dir_of_file fs (Join d name) true c (by simp [Join]) hc
  rwa [Dir_Join] at this

theorem found_matcher_not_file (fs : Node) (recursive : Bool) (path : Path)
    (out : List String) (found : Found) (h : getFilePaths fs recursive path out = some found)
    (d : Path) (hd : d ∈ found.matcherPaths) : d ∉ found.filepaths := by
  intro hf
  obtain ⟨es, he⟩ := found_matcher_dir fs recursive path out found h d hd
  obtain ⟨-, c, hc, -⟩ := found_file fs recursive path out found h d hf
  rw [he] at hc
  cases hc

/-! ## Marker detection -/

theorem visitedFiles_root (fs : Node) (path p : Path) (h : p ∈ visitedFiles fs true path) :
    lookup fs path ≠ none := by
  intro hl
  simp [visitedFiles, Walk, hl, recordFn] at h

theorem plan_file_iff (fs : Node) (recursive : Bool) (root : Path) (out : List String)
    (found : Found) (hfound : getFilePaths fs recursive root out = some found)
    (range : List Path → List Path) (hrange : ∀ l, (range l).Perm l)
    (p : Path) (r : Bool) (c : List Nat) (hfile : lookup fs p = some (.file r c)) :
    p ∈ allFilepathsSorted fs range found.filepaths found.matcherPaths
      ↔ p ∈ found.filepaths := by
  rw [mem_allFilepathsSorted]
  constructor
  · intro h
    rcases appendMatchers_subset fs _ _ p h with h | h
    · exact h
    · have hm : p ∈ found.matcherPaths := (hrange _).mem_iff.1 h
      obtain ⟨es, he⟩ := found_matcher_dir fs recursive root out found hfound p hm
      rw [he] at hfile
      cases hfile
  · exact subset_appendMatchers fs _ _ p

/-- C4: a regular file with the `.go` extension that the walk visits is in the
list of discovered files, and in the plan, exactly when it can be opened and
the marker text occurs within the first 50 bytes of its content.  The content
may have any length: a file shorter than 50 bytes is read into a zero-padded
buffer, and an empty or unreadable file is not discovered. -/
theorem marker_detection (fs : Node) (recursive : Bool) (root p : Path) (out : List String)
    (readable : Bool) (content : List Nat)
    (hvisit : p ∈ visitedFiles fs recursive root)
    (hfile : lookup fs p = some (.file readable content))
    (hext : Ext p = ".go") :
    ∃ found, getFilePaths fs recursive root out = some found ∧ found.err = none
      ∧ (p ∈ found.filepaths ↔ readable = true ∧ marker <:+: content.take 50)
      ∧ ∀ range : List Path → List Path, (∀ l, (range l).Perm l) →
          (p ∈ allFilepathsSorted fs range found.filepaths found.matcherPaths
            ↔ readable = true ∧ marker <:+: content.take 50) := by
  have hroot : recursive = true → lookup fs root ≠ none := by
    intro hr; subst hr; exact visitedFiles_root fs root p hvisit
  obtain ⟨out1, he⟩ := getFilePaths_eq fs recursive root out hroot
  have hiff : p ∈ (visitedFiles fs recursive root).filter (isGeneratedGo fs)
      ↔ readable = true ∧ marker <:+: content.take 50 := by
    rw [List.mem_filter, isGeneratedGo_iff]
    constructor
    · rintro ⟨-, -, c, hc, hm⟩
      rw [hfile] at hc
      cases hc
      exact ⟨rfl, hm⟩
    · rintro ⟨hr, hm⟩
      subst hr
      exact ⟨hvisit, hext, content, hfile, hm⟩
  refine ⟨_, he, rfl, hiff, ?_⟩
  intro range hrange
  rw [plan_file_iff fs recursive root out _ he range hrange p readable content hfile]
  exact hiff

/-- C4, on the generated matcher of the sample tree. -/
theorem marker_detection_witness :
    ["matchers", "foo_matcher.go"] ∈ visitedFiles sampleTree true []
    ∧ lookup sampleTree ["matchers", "foo_matcher.go"]
        = some (.file true (marker ++ [10, 112, 97, 99, 107, 97, 103, 101, 32, 97]))
    ∧ Ext ["matchers", "foo_matcher.go"] = ".go"
    ∧ ∃ found, getFilePaths sampleTree true [] [] = some found ∧ found.err = none
      ∧ (["matchers", "foo_matcher.go"] ∈ found.filepaths
          ↔ true = true
            ∧ marker <:+: (marker ++ [10, 112, 97, 99, 107, 97, 103, 101, 32, 97]).take 50)
      ∧ ∀ range : List Path → List Path, (∀ l, (range l).Perm l) →
          (["matchers", "foo_matcher.go"]
              ∈ allFilepathsSorted sampleTree range found.filepaths found.matcherPaths
            ↔ true = true
              ∧ marker <:+: (marker ++ [10, 112, 97, 99, 107, 97, 103, 101, 32, 97]).take 50) :=
  ⟨by decide, rfl, by decide,
    marker_detection sampleTree true [] ["matchers", "foo_matcher.go"] [] true
      (marker ++ [10, 112, 97, 99, 107, 97, 103, 101, 32, 97]) (by decide) rfl (by decide)⟩

/-! ## Matchers directories in the plan -/

theorem plan_dir_entries (fs : Node) (recursive : Bool) (root : Path) (out : List String)
    (found : Found) (hfound : getFilePaths fs recursive root out = some found)
    (range : List Path → List Path) (hrange : ∀ l, (range l).Perm l)
    (d : Path) (es : List (String × Node)) (hdir : lookup fs d = some (.dir true es))
    (h : d ∈ allFilepathsSorted fs range found.filepaths found.matcherPaths) :
    d ∈ found.matcherPaths
      ∧ ∀ name ∈ names es, Join d name ∈ found.filepaths ∨ Join d name ∈ found.matcherPaths := by
  rw [mem_allFilepathsSorted, mem_appendMatchers] at h
  rcases h with h | ⟨before, after, hsplit, hc⟩
  · obtain ⟨-, c, hc, -⟩ := found_file fs recursive root out found hfound d h
    rw [hdir] at hc
    cases hc
  · have hsub : ∀ x ∈ before, x ∈ found.matcherPaths := by
      intro x hx
      apply (hrange _).mem_iff.1
      rw [hsplit]
      exact List.mem_append_left _ hx
    refine ⟨(hrange _).mem_iff.1 (by rw [hsplit]; simp), ?_⟩
    obtain ⟨es1, he1, hall⟩ := (containsOnlyGeneratedFiles_iff fs d _).1 hc
    rw [hdir] at he1
    cases he1
    intro name hn
    rcases appendMatchers_subset fs _ _ _ (hall name hn) with h1 | h1
    · exact Or.inl h1
    · exact Or.inr (hsub _ h1)

theorem plan_dir_of_entries (fs : Node) (found : Found)
    (range : List Path → List Path) (hrange : ∀ l, (range l).Perm l)
    (d : Path) (es : List (String × Node)) (hdir : lookup fs d = some (.dir true es))
    (hd : d ∈ found.matcherPaths)
    (hall : ∀ name ∈ names es, Join d name ∈ found.filepaths) :
    d ∈ allFilepathsSorted fs range found.filepaths found.matcherPaths := by
  rw [mem_allFilepathsSorted, mem_appendMatchers]
  right
  obtain ⟨before, after, hsplit⟩ := List.append_of_mem ((hrange _).mem_iff.2 hd)
  refine ⟨before, after, hsplit, ?_⟩
  rw [containsOnlyGeneratedFiles_iff]
  exact ⟨es, hdir, fun name hn => subset_appendMatchers fs _ _ _ (hall name hn)⟩

/-- C3, as the claim states it, fails in both directions.  Next to a generated
mock, an empty directory named `matchers` has every entry (there is none) among
the discovered files, and yet it is not in the plan, which lists the mock only.
On nested `matchers` directories, when the inner one is iterated first, the
outer one is in the plan although its entry `matchers/matchers` is not a
discovered file; when the outer one is iterated first, it is not. -/
theorem matchers_in_plan_counterexample :
    (getFilePaths emptyMatchersTree true [] [] = some ⟨[["mock_foo.go"]], [], none, []⟩
      ∧ Base ["matchers"] = "matchers"
      ∧ readdirnames emptyMatchersTree ["matchers"] = some []
      ∧ allFilepathsSorted emptyMatchersTree id [["mock_foo.go"]] [] = [["mock_foo.go"]]
      ∧ (Remove ⟨emptyMatchersTree, ()⟩ id id [] true false true false [] noRemove).out
          = ["This is a dry-run. Would delete the following files:\n", "mock_foo.go\n"]
      ∧ ¬ (["matchers"] ∈ allFilepathsSorted emptyMatchersTree id [["mock_foo.go"]] []
            ↔ ∀ name ∈ ([] : List String), Join ["matchers"] name ∈ [["mock_foo.go"]]))
    ∧ (getFilePaths nestedTree true [] []
        = some ⟨[["matchers", "a.go"], ["matchers", "matchers", "b.go"]],
            [["matchers"], ["matchers", "matchers"]], none, []⟩
      ∧ readdirnames nestedTree ["matchers"] = some ["a.go", "matchers"]
      ∧ (Remove ⟨nestedTree, ()⟩ List.reverse id [] true false true false [] noRemove).out
          = ["This is a dry-run. Would delete the following files:\n",
              "matchers\nmatchers/a.go\nmatchers/matchers\nmatchers/matchers/b.go\n"]
      ∧ (Remove ⟨nestedTree, ()⟩ id id [] true false true false [] noRemove).out
          = ["This is a dry-run. Would delete the following files:\n",
              "matchers/a.go\nmatchers/matchers\nmatchers/matchers/b.go\n"]
      ∧ ¬ (["matchers"] ∈ allFilepathsSorted nestedTree List.reverse
              [["matchers", "a.go"], ["matchers", "matchers", "b.go"]]
              [["matchers"], ["matchers", "matchers"]]
            ↔ ∀ name ∈ ["a.go", "matchers"],
                Join ["matchers"] name
                  ∈ [["matchers", "a.go"], ["matchers", "matchers", "b.go"]])) := by
  refine ⟨⟨rfl, by decide, rfl, by decide, by decide, ?_⟩, ⟨rfl, rfl, by decide, by decide, ?_⟩⟩
  · intro h
    have h1 := h.2 (fun _ hn => absurd hn (List.not_mem_nil _))
    revert h1
    decide
  · intro h
    have h1 := h.1 (by decide) "matchers" (by decide)
    revert h1
    decide

/-- C3, amended.  Let `d` be a directory that can be listed.  If `d` is in the
plan, its base name is `matchers` and it directly holds a discovered generated
file.  If `d` is such a directory and none of its entries is itself a candidate
directory, then `d` is in the plan exactly when every entry present in it is
in the list of discovered generated files.  A directory that holds a regular
file which was not discovered is not in the plan.  This holds in either walk
mode and for every iteration order of the candidate set. -/
theorem matchers_in_plan (fs : Node) (recursive : Bool) (root : Path) (out : List String)
    (found : Found) (range : List Path → List Path) (d : Path) (es : List (String × Node))
    (hfound : getFilePaths fs recursive root out = some found)
    (hrange : ∀ l, (range l).Perm l)
    (hdir : lookup fs d = some (.dir true es)) :
    (d ∈ allFilepathsSorted fs range found.filepaths found.matcherPaths →
        Base d = "matchers" ∧ ∃ name, Join d name ∈ found.filepaths)
    ∧ (Base d = "matchers" → (∃ name, Join d name ∈ found.filepaths) →
        (∀ name ∈ names es, Join d name ∉ found.matcherPaths) →
        (d ∈ allFilepathsSorted fs range found.filepaths found.matcherPaths
          ↔ ∀ name ∈ names es, Join d name ∈ found.filepaths))
    ∧ (∀ name r c, lookupEntry name es = some (.file r c) →
        Join d name ∉ found.filepaths →
        d ∉ allFilepathsSorted fs range found.filepaths found.matcherPaths) := by
  refine ⟨?_, ?_, ?_⟩
  · intro h
    exact (found_matcher fs recursive root out found hfound d).1
      (plan_dir_entries fs recursive root out found hfound range hrange d es hdir h).1
  · intro hb hc hnest
    have hd : d ∈ found.matcherPaths :=
      (found_matcher fs recursive root out found hfound d).2 ⟨hb, hc⟩
    constructor
    · intro h name hn
      rcases (plan_dir_entries fs recursive root out found hfound range hrange d es hdir h).2
        name hn with h1 | h1
      · exact h1
      · exact absurd h1 (hnest name hn)
    · exact plan_dir_of_entries fs found range hrange d es hdir hd
  · intro name r c hentry hnot h
    have hn : name ∈ names es := lookupEntry_mem_names name es _ hentry
    rcases (plan_dir_entries fs recursive root out found hfound range hrange d es hdir h).2
      name hn with h1 | h1
    · exact hnot h1
    · obtain ⟨es1, he1⟩ := found_matcher_dir fs recursive root out found hfound _ h1
      rw [lookup_Join, hdir] at he1
      simp only [Option.some_bind, hentry] at he1
      cases he1

/-- C3, amended, on the `matchers` directory of the sample tree. -/
theorem matchers_in_plan_witness :
    getFilePaths sampleTree true [] []
      = some ⟨[["matchers", "foo_matcher.go"], ["mock_foo.go"]], [["matchers"]], none, []⟩
    ∧ (∀ l : List Path, (id l).Perm l)
    ∧ lookup sampleTree ["matchers"] = some (.dir true [("foo_matcher.go", generatedFile)])
    ∧ ((["matchers"] ∈ allFilepathsSorted sampleTree id
            [["matchers", "foo_matcher.go"], ["mock_foo.go"]] [["matchers"]] →
          Base ["matchers"] = "matchers"
            ∧ ∃ name, Join ["matchers"] name ∈ [["matchers", "foo_matcher.go"], ["mock_foo.go"]])
      ∧ (Base ["matchers"] = "matchers" →
          (∃ name, Join ["matchers"] name ∈ [["matchers", "foo_matcher.go"], ["mock_foo.go"]]) →
          (∀ name ∈ names [("foo_matcher.go", generatedFile)],
            Join ["matchers"] name ∉ [["matchers"]]) →
          (["matchers"] ∈ allFilepathsSorted sampleTree id
              [["matchers", "foo_matcher.go"], ["mock_foo.go"]] [["matchers"]]
            ↔ ∀ name ∈ names [("foo_matcher.go", generatedFile)],
                Join ["matchers"] name ∈ [["matchers", "foo_matcher.go"], ["mock_foo.go"]]))
      ∧ (∀ name r c, lookupEntry name [("foo_matcher.go", generatedFile)] = some (.file r c) →
          Join ["matchers"] name ∉ [["matchers", "foo_matcher.go"], ["mock_foo.go"]] →
          ["matchers"] ∉ allFilepathsSorted sampleTree id
            [["matchers", "foo_matcher.go"], ["mock_foo.go"]] [["matchers"]])) :=
  ⟨rfl, fun l => List.Perm.refl l, rfl,
    matchers_in_plan sampleTree true [] []
      ⟨[["matchers", "foo_matcher.go"], ["mock_foo.go"]], [["matchers"]], none, []⟩ id
      ["matchers"] [("foo_matcher.go", generatedFile)] rfl (fun l => List.Perm.refl l) rfl⟩

/-! ## No path is discovered twice -/

mutual
theorem visits_prefix : (node : Node) → (path : Path) → (v : Path × FileInfo) →
    v ∈ visits path node → path <+: v.1
  | .file _ _, path, v, h => by
    simp only [visits, List.mem_singleton] at h
    subst h
    exact List.prefix_refl _
  | .dir true es, path, v, h => by
    simp only [visits, List.mem_cons] at h
    rcases h with h | h
    · subst h; exact List.prefix_refl _
    · obtain ⟨name, -, hp⟩ := visitsEntries_prefix es path v h
      exact List.IsPrefix.trans (List.prefix_append path [name]) hp
  | .dir false _, path, v, h => by
    simp only [visits, List.mem_singleton] at h
    subst h
    exact List.prefix_refl _
theorem visitsEntries_prefix : (es : List (String × Node)) → (path : Path) →
    (v : Path × FileInfo) → v ∈ visitsEntries path es →
    ∃ name ∈ names es, Join path name <+: v.1
  | [], _, _, h => by simp [visitsEntries] at h
  | (name, child) :: rest, path, v, h => by
    simp only [visitsEntries, List.mem_append] at h
    rcases h with h | h
    · exact ⟨name, by simp [names], visits_prefix child (Join path name) v h⟩
    · obtain ⟨n, hn, hp⟩ := visitsEntries_prefix rest path v h
      exact ⟨n, by simp only [names, List.map_cons, List.mem_cons]; exact Or.inr hn, hp⟩
end

theorem Join_prefix_eq (path x : Path) (n m : String) (h1 : Join path n <+: x)
    (h2 : Join path m <+: x) : n = m := by
  have hlen : (Join path n).length = (Join path m).length := by simp [Join]
  have h := List.prefix_of_prefix_length_le h1 h2 (le_of_eq hlen)
  have h3 := h.eq_of_length hlen
  simpa [Join] using h3

mutual
theorem nodup_visits : (node : Node) → (path : Path) → wellFormed node = true →
    ((visits path node).map Prod.fst).Nodup
  | .file _ _, path, _ => by simp [visits]
  | .dir true es, path, h => by
    simp only [wellFormed, Bool.and_eq_true, decide_eq_true_eq] at h
    simp only [visits, List.map_cons, List.nodup_cons]
    refine ⟨?_, nodup_visitsEntries es path h.2 h.1.2⟩
    intro hmem
    obtain ⟨v, hv, hv1⟩ := List.mem_map.1 hmem
    obtain ⟨name, -, hp⟩ := visitsEntries_prefix es path v hv
    rw [hv1] at hp
    have := hp.length_le
    simp [Join] at this
  | .dir false _, path, _ => by simp [visits]
theorem nodup_visitsEntries : (es : List (String × Node)) → (path : Path) →
    wellFormedEntries es = true → (names es).Nodup →
    ((visitsEntries path es).map Prod.fst).Nodup
  | [], _, _, _ => by simp [visitsEntries]
  | (name, child) :: rest, path, h, hn => by
    simp only [wellFormedEntries, Bool.and_eq_true] at h
    simp only [names, List.map_cons, List.nodup_cons] at hn
    simp only [visitsEntries, List.map_append]
    rw [List.nodup_append]
    refine ⟨nodup_visits child (Join path name) h.1,
      nodup_visitsEntries rest path h.2 hn.2, ?_⟩
    intro x hx1 hx2
    obtain ⟨v1, hv1, rfl⟩ := List.mem_map.1 hx1
    obtain ⟨v2, hv2, he⟩ := List.mem_map.1 hx2
    have p1 := visits_prefix child (Join path name) v1 hv1
    obtain ⟨m, hm, p2⟩ := visitsEntries_prefix rest path v2 hv2
    rw [he] at p2
    have := Join_prefix_eq path v1.1 name m p1 p2
    subst this
    exact hn.1 hm
end

theorem wellFormed_lookupEntry (name : String) (es : List (String × Node)) (c : Node)
    (hw : wellFormedEntries es = true) (h : lookupEntry name es = some c) :
    wellFormed c = true := by
  induction es with
  | nil => simp [lookupEntry] at h
  | cons e rest ih =>
    obtain ⟨n, c1⟩ := e
    simp only [wellFormedEntries, Bool.and_eq_true] at hw
    by_cases hn : n = name
    · simp only [lookupEntry, hn, if_true, Option.some.injEq] at h
      subst h
      exact hw.1
    · simp only [lookupEntry, hn, if_false] at h
      exact ih hw.2 h

theorem wellFormed_lookup (fs : Node) (p : Path) (node : Node) (hw : wellFormed fs = true)
    (h : lookup fs p = some node) : wellFormed node = true := by
  induction p generalizing fs with
  | nil =>
    simp only [lookup, Option.some.injEq] at h
    subst h
    exact hw
  | cons n rest ih =>
    cases fs with
    | file r c => simp [lookup] at h
    | dir r es =>
      cases r with
      | false => simp [lookup] at h
      | true =>
        simp only [lookup] at h
        simp only [wellFormed, Bool.and_eq_true] at hw
        cases hl : lookupEntry n es with
        | none => simp [hl] at h
        | some c =>
          simp only [hl] at h
          exact ih c (wellFormed_lookupEntry n es c hw.2 hl) h

theorem nodup_visitList (fs : Node) (recursive : Bool) (path : Path)
    (hw : wellFormed fs = true) : ((visitList fs recursive path).map Prod.fst).Nodup := by
  unfold visitList
  cases recursive
  · simp only [Bool.false_eq_true, if_false, ioutilReadDir]
    cases hl : lookup fs path with
    | none => simp
    | some node =>
      cases node with
      | file r c => simp
      | dir r es =>
        cases r with
        | false => simp
        | true =>
          have hwn := wellFormed_lookup fs path _ hw hl
          simp only [wellFormed, Bool.and_eq_true, decide_eq_true_eq] at hwn
          have hn : (names es).Nodup := hwn.1.2
          simp only [List.map_map]
          have he : (Prod.fst ∘ (fun info : FileInfo => (Join path info.name, info))
              ∘ fun e : String × Node => (⟨e.1, e.2.isDir⟩ : FileInfo))
              = (fun n => Join path n) ∘ Prod.fst := by
            funext e; rfl
          rw [he, ← List.map_map]
          apply List.Nodup.map _ hn
          intro a b hab
          simpa [Join] using hab
  · simp only [if_true]
    cases hl : lookup fs path with
    | none => simp
    | some node => exact nodup_visits node path (wellFormed_lookup fs path _ hw hl)

theorem nodup_visitedFiles (fs : Node) (recursive : Bool) (path : Path)
    (hw : wellFormed fs = true) : (visitedFiles fs recursive path).Nodup := by
  rw [visitedFiles_eq]
  exact List.Nodup.sublist (List.Sublist.map _ (List.filter_sublist _))
    (nodup_visitList fs recursive path hw)

theorem found_nodup (fs : Node) (recursive : Bool) (path : Path) (out : List String)
    (found : Found) (h : getFilePaths fs recursive path out = some found)
    (hw : wellFormed fs = true) :
    found.filepaths.Nodup ∧ found.matcherPaths.Nodup := by
  obtain ⟨-, hfp, hmp⟩ := getFilePaths_some fs recursive path out found h
  constructor
  · rw [hfp]
    exact List.Nodup.filter _ (nodup_visitedFiles fs recursive path hw)
  · rw [hmp]
    exact nodup_registerMatchers [] _ List.nodup_nil

/-! ## A root that cannot be read -/

/-- C2, the code at a root that does not exist and at a root that cannot be
read.  `getFilePaths` returns no error in any of these runs: without
recursion the error of `ioutil.ReadDir` is dropped and `Remove` reports that
there are no files; with recursion a missing root makes the callback panic on
the nil `FileInfo`, and an unreadable root is skipped in silence.  `removeFn`
is not invoked. -/
theorem unreadable_root_not_reported :
    lookup sampleTree ["missing"] = none
    ∧ getFilePaths sampleTree false ["missing"] [] = some ⟨[], [], none, []⟩
    ∧ (Remove ⟨sampleTree, ()⟩ id id ["missing"] false false false false [] osRemove).out
        = ["No files to remove.\n"]
    ∧ (Remove ⟨sampleTree, ()⟩ id id ["missing"] false false false false [] osRemove).calls = []
    ∧ getFilePaths sampleTree true ["missing"] [] = none
    ∧ (Remove ⟨sampleTree, ()⟩ id id ["missing"] true false false false [] osRemove).panicked
        = true
    ∧ (Remove ⟨sampleTree, ()⟩ id id ["missing"] true false false false [] osRemove).out = []
    ∧ getFilePaths lockedTree false ["locked"] [] = some ⟨[], [], none, []⟩
    ∧ getFilePaths lockedTree true ["locked"] [] = some ⟨[], [], none, []⟩
    ∧ (Remove ⟨lockedTree, ()⟩ id id ["locked"] false false false false [] osRemove).out
        = ["No files to remove.\n"]
    ∧ (Remove ⟨lockedTree, ()⟩ id id ["locked"] true false false false [] osRemove).out
        = ["No files to remove.\n"] := by
  refine ⟨rfl, rfl, ?_, rfl, rfl, ?_, ?_, rfl, rfl, ?_, ?_⟩ <;> decide

/-! ## Deleting outside the plan -/

/-- C10, the code on nested `matchers` directories when the plan loop takes the
outer directory first and the deletion loop takes the inner one first, with
`os.Remove` as the remover and `y` as the answer.  The plan that is shown lists
the two files and the inner directory; the outer directory `matchers` is not in
it, and `removeFn` is invoked on it. -/
theorem directory_deleted_outside_plan :
    getFilePaths nestedTree true [] []
      = some ⟨[["matchers", "a.go"], ["matchers", "matchers", "b.go"]],
          [["matchers"], ["matchers", "matchers"]], none, []⟩
    ∧ allFilepathsSorted nestedTree id
        [["matchers", "a.go"], ["matchers", "matchers", "b.go"]]
        [["matchers"], ["matchers", "matchers"]]
      = [["matchers", "a.go"], ["matchers", "matchers"], ["matchers", "matchers", "b.go"]]
    ∧ (Remove ⟨nestedTree, ()⟩ id List.reverse [] true true false false ['y', '\n']
        osRemove).out
      = ["Will delete the following files:\n",
          "matchers/a.go\nmatchers/matchers\nmatchers/matchers/b.go\n", "Continue? [y/n]: "]
    ∧ ((Remove ⟨nestedTree, ()⟩ id List.reverse [] true true false false ['y', '\n']
        osRemove).calls.map Call.path)
      = [["matchers", "a.go"], ["matchers", "matchers", "b.go"], ["matchers", "matchers"],
          ["matchers"]]
    ∧ ["matchers"] ∉ allFilepathsSorted nestedTree id
        [["matchers", "a.go"], ["matchers", "matchers", "b.go"]]
        [["matchers"], ["matchers", "matchers"]] := by
  refine ⟨rfl, ?_, ?_, ?_, ?_⟩ <;> decide

/-! ## The confirmation gate -/

theorem askForConfirmation_negative (s : String) (pre : List (List Char))
    (l rest : List Char) (out : List String)
    (hpre : ∀ x ∈ pre, '\n' ∉ x ∧
      toLower (trimSpace x) ∉ [['y'], ['y', 'e', 's'], ['n'], ['n', 'o']])
    (hl : '\n' ∉ l) (hneg : toLower (trimSpace l) ∈ [['n'], ['n', 'o']]) :
    (askForConfirmation s ((pre.map fun x => x ++ ['\n']).flatten ++ (l ++ '\n' :: rest))
      out).1 = false := by
  unfold askForConfirmation
  rw [readStrings_lines pre _ (fun x hx => (hpre x hx).1), readStrings_line l rest hl]
  simp only []
  rw [askLoop_skip s pre _ out (fun x hx => (hpre x hx).2)]
  simp only [List.mem_cons, List.mem_singleton, List.not_mem_nil, or_false] at hneg
  simp only [askLoop, trimSpace_newline]
  rcases hneg with h | h <;> simp [h]

theorem askForConfirmation_eof (s : String) (pre : List (List Char)) (tl : List Char)
    (out : List String)
    (hpre : ∀ x ∈ pre, '\n' ∉ x ∧
      toLower (trimSpace x) ∉ [['y'], ['y', 'e', 's'], ['n'], ['n', 'o']])
    (htl : '\n' ∉ tl) :
    askForConfirmation s ((pre.map fun x => x ++ ['\n']).flatten ++ tl) out
      = (false, out ++ List.replicate (pre.length + 1) (prompt s)
          ++ ["Could not get confirmation from StdIn EOF\n"]) := by
  unfold askForConfirmation
  rw [readStrings_lines pre _ (fun x hx => (hpre x hx).1), readStrings_tail tl htl]
  simp only []
  rw [askLoop_skip s pre _ out (fun x hx => (hpre x hx).2)]
  simp [askLoop, List.replicate_succ', List.append_assoc]

theorem Remove_no_calls_of_gate {σ : Type} (w : World σ)
    (rangePlan rangeDel : List Path → List Path) (path : Path)
    (recursive shouldConfirm dryRun silent : Bool) (inp : List Char) (removeFn : RemoveFn σ)
    (hgate : ∀ plan out, (confirmGate shouldConfirm silent plan inp out).1 = false) :
    (Remove w rangePlan rangeDel path recursive shouldConfirm dryRun silent inp removeFn).calls
      = [] := by
  unfold Remove
  split
  · rfl
  · rfl
  · split
    · rfl
    · split
      · rfl
      · simp [hgate]

/-- C6: with `shouldConfirm = true`, if the first recognised answer on the
input is `n` or `no`, or the input ends before a recognised answer is read,
then `removeFn` is never invoked.  In the second case, when the run gets as far
as the prompt, the sink receives the plan, one prompt for every read, and then
the message that reports the read error. -/
theorem no_delete_without_yes {σ : Type} (w : World σ)
    (rangePlan rangeDel : List Path → List Path) (path : Path)
    (recursive dryRun silent : Bool) (removeFn : RemoveFn σ)
    (pre : List (List Char)) (tl : List Char)
    (hpre : ∀ x ∈ pre, '\n' ∉ x ∧
      toLower (trimSpace x) ∉ [['y'], ['y', 'e', 's'], ['n'], ['n', 'o']])
    (htl : (∃ l rest, tl = l ++ '\n' :: rest ∧ '\n' ∉ l
        ∧ toLower (trimSpace l) ∈ [['n'], ['n', 'o']]) ∨ '\n' ∉ tl) :
    (Remove w rangePlan rangeDel path recursive true dryRun silent
        ((pre.map fun x => x ++ ['\n']).flatten ++ tl) removeFn).calls = []
    ∧ ('\n' ∉ tl → dryRun = false → ∀ fp mp out,
        getFilePaths w.fs recursive path [] = some ⟨fp, mp, none, out⟩ → fp ≠ [] →
        (Remove w rangePlan rangeDel path recursive true dryRun silent
          ((pre.map fun x => x ++ ['\n']).flatten ++ tl) removeFn).out
          = out ++ ["Will delete the following files:\n",
                listing (allFilepathsSorted w.fs rangePlan fp mp)]
              ++ List.replicate (pre.length + 1) (prompt "Continue?")
              ++ ["Could not get confirmation from StdIn EOF\n"]) := by
  have hgate : ∀ plan out, (confirmGate true silent plan
      ((pre.map fun x => x ++ ['\n']).flatten ++ tl) out).1 = false := by
    intro plan out
    simp only [confirmGate, if_true]
    rcases htl with ⟨l, rest, rfl, hl, hneg⟩ | htl
    · exact askForConfirmation_negative _ pre l rest _ hpre hl hneg
    · rw [askForConfirmation_eof _ pre tl _ hpre htl]
  refine ⟨Remove_no_calls_of_gate w rangePlan rangeDel path recursive true dryRun silent _
    removeFn hgate, ?_⟩
  intro htl1 hdry fp mp out hfound hne
  subst hdry
  rw [Remove_eq_stop w rangePlan rangeDel path recursive true silent _ removeFn fp mp out
    hfound hne (hgate _ _)]
  simp only [confirmGate, if_true]
  rw [askForConfirmation_eof _ pre tl _ hpre htl1]

/-- C6, on the sample tree with the input `maybe` and then the end of the
stream. -/
theorem no_delete_without_yes_witness :
    (∀ x ∈ [['m', 'a', 'y', 'b', 'e']], '\n' ∉ x ∧
      toLower (trimSpace x) ∉ [['y'], ['y', 'e', 's'], ['n'], ['n', 'o']])
    ∧ ((∃ l rest, ([] : List Char) = l ++ '\n' :: rest ∧ '\n' ∉ l
        ∧ toLower (trimSpace l) ∈ [['n'], ['n', 'o']]) ∨ '\n' ∉ ([] : List Char))
    ∧ ((Remove ⟨sampleTree, ()⟩ id id [] true true false false
        (([['m', 'a', 'y', 'b', 'e']].map fun x => x ++ ['\n']).flatten ++ []) osRemove).calls = []
      ∧ ('\n' ∉ ([] : List Char) → false = false → ∀ fp mp out,
        getFilePaths (World.mk sampleTree ()).fs true [] [] = some ⟨fp, mp, none, out⟩ →
        fp ≠ [] →
        (Remove ⟨sampleTree, ()⟩ id id [] true true false false
          (([['m', 'a', 'y', 'b', 'e']].map fun x => x ++ ['\n']).flatten ++ []) osRemove).out
          = out ++ ["Will delete the following files:\n",
                listing (allFilepathsSorted (World.mk sampleTree ()).fs id fp mp)]
              ++ List.replicate ([['m', 'a', 'y', 'b', 'e']].length + 1) (prompt "Continue?")
              ++ ["Could not get confirmation from StdIn EOF\n"])) :=
  ⟨by decide, Or.inr (by decide),
    no_delete_without_yes ⟨sampleTree, ()⟩ id id [] true false false osRemove
      [['m', 'a', 'y', 'b', 'e']] [] (by decide) (Or.inr (by decide))⟩

/-! ## Execution -/

theorem exec_calls {σ : Type} (w : World σ) (removeFn : RemoveFn σ) (fp ds : List Path) :
    ∃ fileCalls dirCalls : List Call,
      (removeMatchers removeFn ds (removeFiles removeFn fp ⟨w, [], []⟩)).calls
        = fileCalls ++ dirCalls
      ∧ fileCalls.map Call.path = fp
      ∧ (∀ c ∈ dirCalls, c.path ∈ ds ∧ dirEmpty c.fsBefore c.path = true)
      ∧ (removeMatchers removeFn ds (removeFiles removeFn fp ⟨w, [], []⟩)).errs
        = (fileCalls ++ dirCalls).filterMap Call.err := by
  obtain ⟨fileCalls, f1, f2, f3⟩ := removeFiles_spec removeFn fp ⟨w, [], []⟩
  obtain ⟨dirCalls, d1, d2, d3⟩ :=
    removeMatchers_spec removeFn ds (removeFiles removeFn fp ⟨w, [], []⟩)
  simp only [List.nil_append] at f1 f2
  refine ⟨fileCalls, dirCalls, ?_, f3, d3, ?_⟩
  · rw [d1, f1]
  · rw [d2, f2, List.filterMap_append]

theorem filterMap_err_eq_nil (calls : List Call) :
    calls.filterMap Call.err = [] ↔ ∀ c ∈ calls, c.err = none := by
  induction calls with
  | nil => simp
  | cons c rest ih =>
    cases hc : c.err with
    | none => simp [List.filterMap_cons, hc, ih]
    | some e => simp [List.filterMap_cons, hc]

theorem count_eq_one_of_nodup (l : List Path) (p : Path) (hn : l.Nodup) (hp : p ∈ l) :
    l.count p = 1 := by
  induction l with
  | nil => simp at hp
  | cons q rest ih =>
    rw [List.count_cons]
    have hq := List.nodup_cons.1 hn
    by_cases h : q = p
    · subst h
      rw [List.count_eq_zero_of_not_mem hq.1]
      simp
    · have hmem : p ∈ rest := by
        rcases List.mem_cons.1 hp with h1 | h1
        · exact absurd h1.symm h
        · exact h1
      rw [ih hq.2 hmem]
      simp [h]

/-- C9: when `Remove` reaches execution (files were discovered, the run is not
a dry run, and the gate lets it through), then whatever `removeFn` returns,
the invocations are first one for each discovered generated file, in discovery
order, and then invocations on candidate directories only; each discovered
file is the argument of exactly one invocation; `errs` holds the errors the
invocations returned; and the line `There were some errors when trying to
delete files: <errors>` is the last chunk written when an invocation returned
an error and is not written when none did. -/
theorem best_effort_deletion {σ : Type} (w : World σ)
    (rangePlan rangeDel : List Path → List Path) (path : Path)
    (recursive shouldConfirm silent : Bool) (inp : List Char) (removeFn : RemoveFn σ)
    (fp mp : List Path) (out : List String)
    (hfound : getFilePaths w.fs recursive path [] = some ⟨fp, mp, none, out⟩)
    (hne : fp ≠ []) (hwf : wellFormed w.fs = true) (hrange : ∀ l, (rangeDel l).Perm l)
    (hgate : (confirmGate shouldConfirm silent (allFilepathsSorted w.fs rangePlan fp mp)
      inp out).1 = true) :
    ∃ fileCalls dirCalls : List Call,
      (Remove w rangePlan rangeDel path recursive shouldConfirm false silent inp removeFn).calls
        = fileCalls ++ dirCalls
      ∧ fileCalls.map Call.path = fp
      ∧ (∀ c ∈ dirCalls, c.path ∈ mp ∧ c.path ∉ fp)
      ∧ (∀ p ∈ fp, ((Remove w rangePlan rangeDel path recursive shouldConfirm false silent inp
          removeFn).calls.map Call.path).count p = 1)
      ∧ (Remove w rangePlan rangeDel path recursive shouldConfirm false silent inp removeFn).errs
        = (fileCalls ++ dirCalls).filterMap Call.err
      ∧ ((∃ c ∈ fileCalls ++ dirCalls, c.err ≠ none) →
          (Remove w rangePlan rangeDel path recursive shouldConfirm false silent inp removeFn).out
            = (confirmGate shouldConfirm silent (allFilepathsSorted w.fs rangePlan fp mp)
                inp out).2
              ++ ["There were some errors when trying to delete files: "
                ++ showErrs ((fileCalls ++ dirCalls).filterMap Call.err)])
      ∧ ((∀ c ∈ fileCalls ++ dirCalls, c.err = none) →
          (Remove w rangePlan rangeDel path recursive shouldConfirm false silent inp removeFn).out
            = (confirmGate shouldConfirm silent (allFilepathsSorted w.fs rangePlan fp mp)
                inp out).2)
      ∧ (Remove w rangePlan rangeDel path recursive shouldConfirm false silent inp
          removeFn).panicked = false := by
  rw [Remove_eq_exec w rangePlan rangeDel path recursive shouldConfirm silent inp removeFn fp mp
    out hfound hne hgate]
  obtain ⟨fileCalls, dirCalls, hc, hf, hd, he⟩ := exec_calls w removeFn fp (rangeDel mp)
  have hdir : ∀ c ∈ dirCalls, c.path ∈ mp ∧ c.path ∉ fp := by
    intro c hcm
    have hm : c.path ∈ mp := (hrange _).mem_iff.1 (hd c hcm).1
    exact ⟨hm, found_matcher_not_file w.fs recursive path [] _ hfound c.path hm⟩
  refine ⟨fileCalls, dirCalls, hc, hf, hdir, ?_, he, ?_, ?_, rfl⟩
  · intro p hp
    simp only []
    rw [hc, List.map_append, hf, List.count_append]
    have h1 : List.count p fp = 1 :=
      count_eq_one_of_nodup fp p (found_nodup w.fs recursive path [] _ hfound hwf).1 hp
    have h2 : List.count p (dirCalls.map Call.path) = 0 := by
      apply List.count_eq_zero_of_not_mem
      intro hmem
      obtain ⟨c, hcm, hcp⟩ := List.mem_map.1 hmem
      exact (hdir c hcm).2 (hcp ▸ hp)
    rw [h1, h2]
  · rintro ⟨c, hcm, hcerr⟩
    simp only []
    rw [he]
    have hpos : 0 < ((fileCalls ++ dirCalls).filterMap Call.err).length := by
      apply List.length_pos.2
      intro hnil
      exact hcerr ((filterMap_err_eq_nil _).1 hnil c hcm)
    rw [if_pos hpos]
  · intro hall
    simp only []
    rw [he, (filterMap_err_eq_nil _).2 hall]
    simp

/-- C9, on the sample tree with `os.Remove` and no confirmation. -/
theorem best_effort_deletion_witness :
    getFilePaths (World.mk sampleTree ()).fs true [] []
      = some ⟨[["matchers", "foo_matcher.go"], ["mock_foo.go"]], [["matchers"]], none, []⟩
    ∧ [["matchers", "foo_matcher.go"], ["mock_foo.go"]] ≠ []
    ∧ wellFormed (World.mk sampleTree ()).fs = true
    ∧ (∀ l : List Path, (id l).Perm l)
    ∧ (confirmGate false false (allFilepathsSorted (World.mk sampleTree ()).fs id
        [["matchers", "foo_matcher.go"], ["mock_foo.go"]] [["matchers"]]) [] []).1 = true
    ∧ ∃ fileCalls dirCalls : List Call,
      (Remove ⟨sampleTree, ()⟩ id id [] true false false false [] osRemove).calls
        = fileCalls ++ dirCalls
      ∧ fileCalls.map Call.path = [["matchers", "foo_matcher.go"], ["mock_foo.go"]]
      ∧ (∀ c ∈ dirCalls, c.path ∈ [["matchers"]]
          ∧ c.path ∉ [["matchers", "foo_matcher.go"], ["mock_foo.go"]])
      ∧ (∀ p ∈ [["matchers", "foo_matcher.go"], ["mock_foo.go"]],
          ((Remove ⟨sampleTree, ()⟩ id id [] true false false false []
            osRemove).calls.map Call.path).count p = 1)
      ∧ (Remove ⟨sampleTree, ()⟩ id id [] true false false false [] osRemove).errs
        = (fileCalls ++ dirCalls).filterMap Call.err
      ∧ ((∃ c ∈ fileCalls ++ dirCalls, c.err ≠ none) →
          (Remove ⟨sampleTree, ()⟩ id id [] true false false false [] osRemove).out
            = (confirmGate false false (allFilepathsSorted (World.mk sampleTree ()).fs id
                [["matchers", "foo_matcher.go"], ["mock_foo.go"]] [["matchers"]]) [] []).2
              ++ ["There were some errors when trying to delete files: "
                ++ showErrs ((fileCalls ++ dirCalls).filterMap Call.err)])
      ∧ ((∀ c ∈ fileCalls ++ dirCalls, c.err = none) →
          (Remove ⟨sampleTree, ()⟩ id id [] true false false false [] osRemove).out
            = (confirmGate false false (allFilepathsSorted (World.mk sampleTree ()).fs id
                [["matchers", "foo_matcher.go"], ["mock_foo.go"]] [["matchers"]]) [] []).2)
      ∧ (Remove ⟨sampleTree, ()⟩ id id [] true false false false [] osRemove).panicked
          = false :=
  ⟨rfl, by decide, by decide, fun l => List.Perm.refl l, by decide,
    best_effort_deletion ⟨sampleTree, ()⟩ id id [] true false false [] osRemove
      [["matchers", "foo_matcher.go"], ["mock_foo.go"]] [["matchers"]] [] rfl (by decide)
      (by decide) (fun l => List.Perm.refl l) (by decide)⟩

/-! ## The text of a path -/

theorem append_sep_inj (x : Char) (l1 l2 r1 r2 : List Char) (h : l1 ++ x :: r1 = l2 ++ x :: r2)
    (h1 : x ∉ l1) (h2 : x ∉ l2) : l1 = l2 ∧ r1 = r2 := by
  induction l1 generalizing l2 with
  | nil =>
    cases l2 with
    | nil => simpa using h
    | cons b bs =>
      simp only [List.nil_append, List.cons_append, List.cons.injEq] at h
      exact absurd (by simp [h.1]) h2
  | cons a as ih =>
    cases l2 with
    | nil =>
      simp only [List.nil_append, List.cons_append, List.cons.injEq] at h
      exact absurd (by simp [h.1]) h1
    | cons b bs =>
      simp only [List.cons_append, List.cons.injEq] at h
      have ha : x ∉ as := fun hx => h1 (List.mem_cons_of_mem _ hx)
      have hb : x ∉ bs := fun hx => h2 (List.mem_cons_of_mem _ hx)
      obtain ⟨e1, e2⟩ := ih bs h.2 ha hb
      exact ⟨by rw [h.1, e1], e2⟩

theorem validName_spec (name : String) (h : validName name = true) :
    '/' ∉ name.data ∧ name ≠ "." := by
  simp only [validName, Bool.and_eq_true, decide_eq_true_eq, Bool.not_eq_true',
    List.contains_eq_any_beq, List.any_eq_false, beq_iff_eq] at h
  refine ⟨?_, h.1.2⟩
  intro hm
  exact h.1.1.2 '/' hm rfl

theorem render_cons_cons_data (a b : String) (rest : Path) :
    (render (a :: b :: rest)).data = a.data ++ '/' :: (render (b :: rest)).data := by
  simp [render, String.data_append]

theorem render_inj (p q : Path) (hp : ∀ n ∈ p, validName n = true)
    (hq : ∀ n ∈ q, validName n = true) (h : render p = render q) : p = q := by
  induction p generalizing q with
  | nil =>
    cases q with
    | nil => rfl
    | cons b bs =>
      cases bs with
      | nil =>
        simp only [render] at h
        exact absurd h.symm (validName_spec b (hq b (by simp))).2
      | cons b2 r =>
        have hd := congrArg String.data h
        rw [render_cons_cons_data] at hd
        have : '/' ∈ (render []).data := by rw [hd]; simp
        exact absurd this (by decide)
  | cons a as ih =>
    cases as with
    | nil =>
      cases q with
      | nil =>
        simp only [render] at h
        exact absurd h (validName_spec a (hp a (by simp))).2
      | cons b bs =>
        cases bs with
        | nil =>
          simp only [render] at h
          rw [h]
        | cons b2 r =>
          have hd := congrArg String.data h
          rw [render_cons_cons_data] at hd
          simp only [render] at hd
          have : '/' ∈ a.data := by rw [hd]; simp
          exact absurd this (validName_spec a (hp a (by simp))).1
    | cons a2 r =>
      cases q with
      | nil =>
        have hd := congrArg String.data h
        rw [render_cons_cons_data] at hd
        have : '/' ∈ (render []).data := by rw [← hd]; simp
        exact absurd this (by decide)
      | cons b bs =>
        cases bs with
        | nil =>
          have hd := congrArg String.data h
          rw [render_cons_cons_data] at hd
          simp only [render] at hd
          have : '/' ∈ b.data := by rw [← hd]; simp
          exact absurd this (validName_spec b (hq b (by simp))).1
        | cons b2 r2 =>
          have hd := congrArg String.data h
          rw [render_cons_cons_data, render_cons_cons_data] at hd
          obtain ⟨e1, e2⟩ := append_sep_inj '/' _ _ _ _ hd
            (validName_spec a (hp a (by simp))).1 (validName_spec b (hq b (by simp))).1
          have hab : a = b := String.ext e1
          have hr : render (a2 :: r) = render (b2 :: r2) := String.ext e2
          have := ih (b2 :: r2) (fun n hn => hp n (List.mem_cons_of_mem _ hn))
            (fun n hn => hq n (List.mem_cons_of_mem _ hn)) hr
          rw [hab, this]

theorem validName_lookupEntry (name : String) (es : List (String × Node)) (c : Node)
    (hv : (names es).all validName = true) (h : lookupEntry name es = some c) :
    validName name = true := by
  have hm := lookupEntry_mem_names name es c h
  rw [List.all_eq_true] at hv
  exact hv name hm

theorem valid_of_lookup (fs : Node) (p : Path) (node : Node) (hw : wellFormed fs = true)
    (h : lookup fs p = some node) : ∀ n ∈ p, validName n = true := by
  induction p generalizing fs with
  | nil => intro n hn; simp at hn
  | cons m rest ih =>
    cases fs with
    | file r c => simp [lookup] at h
    | dir r es =>
      cases r with
      | false => simp [lookup] at h
      | true =>
        simp only [lookup] at h
        simp only [wellFormed, Bool.and_eq_true] at hw
        cases hl : lookupEntry m es with
        | none => simp [hl] at h
        | some c =>
          simp only [hl] at h
          intro n hn
          rcases List.mem_cons.1 hn with hn | hn
          · subst hn
            exact validName_lookupEntry n es c hw.1.1 hl
          · exact ih c (wellFormed_lookupEntry m es c hw.2 hl) h n hn

/-! ## The plan that is printed -/

theorem askLoop_out (s : String) (ls : List (List Char)) (out : List String) :
    ∃ extra, (askLoop s ls out).2 = out ++ extra := by
  induction ls generalizing out with
  | nil => exact ⟨_, rfl⟩
  | cons l rest ih =>
    simp only [askLoop]
    split
    · exact ⟨_, rfl⟩
    · split
      · exact ⟨_, rfl⟩
      · obtain ⟨extra, he⟩ := ih (out ++ [prompt s])
        exact ⟨prompt s :: extra, by rw [he]; simp⟩

theorem plan_nodup (fs : Node) (recursive : Bool) (root : Path) (out : List String)
    (found : Found) (hfound : getFilePaths fs recursive root out = some found)
    (hwf : wellFormed fs = true) (range : List Path → List Path)
    (hrange : ∀ l, (range l).Perm l) :
    (allFilepathsSorted fs range found.filepaths found.matcherPaths).Nodup := by
  obtain ⟨h1, h2⟩ := found_nodup fs recursive root out found hfound hwf
  apply (sortStrings_perm _).nodup_iff.2
  apply nodup_appendMatchers fs _ _ h1 ((hrange _).nodup_iff.2 h2)
  intro x hx
  exact found_matcher_not_file fs recursive root out found hfound x ((hrange _).mem_iff.1 hx)

theorem plan_valid (fs : Node) (recursive : Bool) (root : Path) (out : List String)
    (found : Found) (hfound : getFilePaths fs recursive root out = some found)
    (hwf : wellFormed fs = true) (range : List Path → List Path)
    (hrange : ∀ l, (range l).Perm l) (p : Path)
    (hp : p ∈ allFilepathsSorted fs range found.filepaths found.matcherPaths) :
    ∀ n ∈ p, validName n = true := by
  rw [mem_allFilepathsSorted] at hp
  rcases appendMatchers_subset fs _ _ p hp with h | h
  · obtain ⟨-, c, hc, -⟩ := found_file fs recursive root out found hfound p h
    exact valid_of_lookup fs p _ hwf hc
  · obtain ⟨es, he⟩ := found_matcher_dir fs recursive root out found hfound p
      ((hrange _).mem_iff.1 h)
    exact valid_of_lookup fs p _ hwf he

/-- C7: the plan `Remove` prints in dry-run, confirm and announce mode is the
same list; its lines are in ascending lexicographic order; no line occurs
twice; and a path is in it exactly when it is a discovered generated file, or a
candidate directory that passed `containsOnlyGeneratedFiles` on its turn in the
loop.  This holds in either walk mode and for every iteration order. -/
theorem plan_sorted_nodup_complete {σ : Type} (w : World σ)
    (rangePlan rangeDel : List Path → List Path) (path : Path)
    (recursive shouldConfirm silent : Bool) (inp : List Char) (removeFn : RemoveFn σ)
    (fp mp : List Path) (out : List String)
    (hfound : getFilePaths w.fs recursive path [] = some ⟨fp, mp, none, out⟩)
    (hne : fp ≠ []) (hwf : wellFormed w.fs = true) (hrange : ∀ l, (rangePlan l).Perm l) :
    List.Sorted (fun a b : String => a ≤ b)
      ((allFilepathsSorted w.fs rangePlan fp mp).map render)
    ∧ ((allFilepathsSorted w.fs rangePlan fp mp).map render).Nodup
    ∧ (∀ p, p ∈ allFilepathsSorted w.fs rangePlan fp mp
        ↔ p ∈ fp ∨ (p ∈ mp ∧ ∃ before after, rangePlan mp = before ++ p :: after
            ∧ containsOnlyGeneratedFiles w.fs p (appendMatchers w.fs before fp) = true))
    ∧ (Remove w rangePlan rangeDel path recursive shouldConfirm true silent inp removeFn).out
        = out ++ ["This is a dry-run. Would delete the following files:\n",
            listing (allFilepathsSorted w.fs rangePlan fp mp)]
    ∧ (∃ more, (Remove w rangePlan rangeDel path recursive true false silent inp removeFn).out
        = out ++ ["Will delete the following files:\n",
            listing (allFilepathsSorted w.fs rangePlan fp mp)] ++ more)
    ∧ (∃ more, (Remove w rangePlan rangeDel path recursive false false false inp removeFn).out
        = out ++ ["Deleting the following files:\n",
            listing (allFilepathsSorted w.fs rangePlan fp mp)] ++ more) := by
  refine ⟨sortStrings_sorted _, ?_, ?_, ?_, ?_, ?_⟩
  · apply List.Nodup.map_on _
      (plan_nodup w.fs recursive path [] _ hfound hwf rangePlan hrange)
    intro p hp q hq hpq
    exact render_inj p q
      (plan_valid w.fs recursive path [] _ hfound hwf rangePlan hrange p hp)
      (plan_valid w.fs recursive path [] _ hfound hwf rangePlan hrange q hq) hpq
  · intro p
    rw [mem_allFilepathsSorted, mem_appendMatchers]
    constructor
    · rintro (h | ⟨before, after, hs, hc⟩)
      · exact Or.inl h
      · exact Or.inr ⟨(hrange _).mem_iff.1 (by rw [hs]; simp), before, after, hs, hc⟩
    · rintro (h | ⟨-, before, after, hs, hc⟩)
      · exact Or.inl h
      · exact Or.inr ⟨before, after, hs, hc⟩
  · rw [Remove_eq_dry w rangePlan rangeDel path recursive shouldConfirm silent inp removeFn
      fp mp out hfound hne]
  · obtain ⟨extra, he⟩ := askLoop_out "Continue?" (readStrings inp).1
      (out ++ ["Will delete the following files:\n",
        listing (allFilepathsSorted w.fs rangePlan fp mp)])
    have hg : (confirmGate true silent (allFilepathsSorted w.fs rangePlan fp mp) inp out).2
        = out ++ ["Will delete the following files:\n",
            listing (allFilepathsSorted w.fs rangePlan fp mp)] ++ extra := by
      simp only [confirmGate, if_true, askForConfirmation]
      exact he
    cases hb : (confirmGate true silent (allFilepathsSorted w.fs rangePlan fp mp) inp out).1
    · rw [Remove_eq_stop w rangePlan rangeDel path recursive true silent inp removeFn
        fp mp out hfound hne hb]
      exact ⟨extra, hg⟩
    · rw [Remove_eq_exec w rangePlan rangeDel path recursive true silent inp removeFn
        fp mp out hfound hne hb]
      simp only []
      rw [hg]
      exact ⟨_, List.append_assoc _ _ _⟩
  · have hb : (confirmGate false false (allFilepathsSorted w.fs rangePlan fp mp) inp out).1
        = true := by simp [confirmGate]
    rw [Remove_eq_exec w rangePlan rangeDel path recursive false false inp removeFn
      fp mp out hfound hne hb]
    simp only []
    have hg : (confirmGate false false (allFilepathsSorted w.fs rangePlan fp mp) inp out).2
        = out ++ ["Deleting the following files:\n",
            listing (allFilepathsSorted w.fs rangePlan fp mp)] := by simp [confirmGate]
    rw [hg]
    exact ⟨_, rfl⟩

/-- C7, on the sample tree. -/
theorem plan_sorted_nodup_complete_witness :
    getFilePaths (World.mk sampleTree ()).fs true [] []
      = some ⟨[["matchers", "foo_matcher.go"], ["mock_foo.go"]], [["matchers"]], none, []⟩
    ∧ [["matchers", "foo_matcher.go"], ["mock_foo.go"]] ≠ []
    ∧ wellFormed (World.mk sampleTree ()).fs = true
    ∧ (∀ l : List Path, (id l).Perm l)
    ∧ (List.Sorted (fun a b : String => a ≤ b)
        ((allFilepathsSorted (World.mk sampleTree ()).fs id
          [["matchers", "foo_matcher.go"], ["mock_foo.go"]] [["matchers"]]).map render)
      ∧ ((allFilepathsSorted (World.mk sampleTree ()).fs id
          [["matchers", "foo_matcher.go"], ["mock_foo.go"]] [["matchers"]]).map render).Nodup
      ∧ (∀ p, p ∈ allFilepathsSorted (World.mk sampleTree ()).fs id
            [["matchers", "foo_matcher.go"], ["mock_foo.go"]] [["matchers"]]
          ↔ p ∈ [["matchers", "foo_matcher.go"], ["mock_foo.go"]]
            ∨ (p ∈ [["matchers"]] ∧ ∃ before after, id [["matchers"]] = before ++ p :: after
              ∧ containsOnlyGeneratedFiles (World.mk sampleTree ()).fs p
                  (appendMatchers (World.mk sampleTree ()).fs before
                    [["matchers", "foo_matcher.go"], ["mock_foo.go"]]) = true))
      ∧ (Remove ⟨sampleTree, ()⟩ id id [] true false true false [] osRemove).out
          = [] ++ ["This is a dry-run. Would delete the following files:\n",
              listing (allFilepathsSorted (World.mk sampleTree ()).fs id
                [["matchers", "foo_matcher.go"], ["mock_foo.go"]] [["matchers"]])]
      ∧ (∃ more, (Remove ⟨sampleTree, ()⟩ id id [] true true false false [] osRemove).out
          = [] ++ ["Will delete the following files:\n",
              listing (allFilepathsSorted (World.mk sampleTree ()).fs id
                [["matchers", "foo_matcher.go"], ["mock_foo.go"]] [["matchers"]])] ++ more)
      ∧ (∃ more, (Remove ⟨sampleTree, ()⟩ id id [] true false false false [] osRemove).out
          = [] ++ ["Deleting the following files:\n",
              listing (allFilepathsSorted (World.mk sampleTree ()).fs id
                [["matchers", "foo_matcher.go"], ["mock_foo.go"]] [["matchers"]])] ++ more)) :=
  ⟨rfl, by decide, by decide, fun l => List.Perm.refl l,
    plan_sorted_nodup_complete ⟨sampleTree, ()⟩ id id [] true false false [] osRemove
      [["matchers", "foo_matcher.go"], ["mock_foo.go"]] [["matchers"]] [] rfl (by decide)
      (by decide) (fun l => List.Perm.refl l)⟩

end Pegomock
